import Mathlib

/-!
# Dynamic memory management library: a shallow embedding

The C++ source keeps two structures over one arena (`pool`):

* the block ledger: `Block` headers written into the arena, doubly linked
  through `next`/`prev`;
* the size index: a binary tree of heap allocated `TreeNode`s, each holding a
  pointer to a `Block`.

Embedding choices.

* An address inside the arena is its byte offset from `pool` (a `Nat`);
  `memoryPool` is offset `0`. A pointer is an `Option Nat`, `none` being
  `nullptr`.
* The arena is a map from offsets to headers (`Pool`). The headers of blocks
  that were merged away are never erased by the code, so they stay readable in
  the map exactly as they stay readable in the arena.
* `size_t` is 64 bits wide and `sizeof(Block)` is 32 (LP64). Arithmetic on
  `size_t` is written with an explicit `% SIZE_MOD`.
* A `TreeNode*` owned by its parent is a value of the inductive type
  `TreeNode`; the recursive functions return the new subtree root exactly as
  the source functions do. The member `treeRoot` is a `NodePtr`: either a live
  tree or a pointer to a node that has been passed to `delete`. Reading through
  the latter has no defined behaviour, which the operations report as `none`
  (`FreedRead.undefined`). The operations also take the lenient reading
  `FreedRead.intact`, on which a deleted node keeps its last contents; it only
  serves to show that a property which fails keeps failing on that reading.
* Headers at different offsets are independent values: the map does not
  record that a header occupies `headerSize` bytes, and the payload bytes
  (the `memset` calls of `main`) are not represented.
-/

namespace DynMem

/-- The value of `sizeof(Block)`: `size_t`, `bool` (padded) and two pointers. -/
def headerSize : Nat := 32

/-- Number of values of `size_t`. -/
def SIZE_MOD : Nat := 18446744073709551616

/-- Header `struct Block`. -/
structure Block where
  size : Nat
  free : Bool
  next : Option Nat
  prev : Option Nat
deriving DecidableEq, Repr

/-- Contents of the arena, seen as the header stored at each offset. -/
abbrev Pool := Nat → Block

/-- Write of a whole header. -/
def Pool.store (mem : Pool) (a : Nat) (b : Block) : Pool :=
  fun x => if x = a then b else mem x

/-- Assignment `a->size = v`. -/
def setSize (mem : Pool) (a : Nat) (v : Nat) : Pool :=
  mem.store a { mem a with size := v }

/-- Assignment `a->free = v`. -/
def setFree (mem : Pool) (a : Nat) (v : Bool) : Pool :=
  mem.store a { mem a with free := v }

/-- Assignment `a->next = v`. -/
def setNext (mem : Pool) (a : Nat) (v : Option Nat) : Pool :=
  mem.store a { mem a with next := v }

/-- Assignment `a->prev = v`. -/
def setPrev (mem : Pool) (a : Nat) (v : Option Nat) : Pool :=
  mem.store a { mem a with prev := v }

/-- Node `struct TreeNode`; `nil` is `nullptr`. -/
inductive TreeNode where
  | nil : TreeNode
  | node (block : Nat) (left : TreeNode) (right : TreeNode) : TreeNode
deriving DecidableEq, Repr

/-- The member `treeRoot`: a pointer to a live tree, or a pointer to a node
that has been passed to `delete`; `t` is then what that node and the nodes
below it last held. -/
inductive NodePtr where
  | live (t : TreeNode) : NodePtr
  | dangling (t : TreeNode) : NodePtr
deriving DecidableEq, Repr

/-- What a read through a pointer to a deleted `TreeNode` yields. The language
gives it no defined behaviour (`undefined`). On the lenient reading `intact` the
storage keeps the last contents of the node and `new` never hands it out
again. -/
inductive FreedRead where
  | undefined : FreedRead
  | intact : FreedRead
deriving DecidableEq, Repr

/-- The tree read through `treeRoot`; `none` when the read is not defined. -/
def NodePtr.read (freed : FreedRead) : NodePtr → Option TreeNode
  | .live t => some t
  | .dangling t =>
    match freed with
    | .undefined => none
    | .intact => some t

/-- The pointer after the nodes below it were updated in place: it keeps its
value, hence also its being dangling. -/
def NodePtr.update : NodePtr → TreeNode → NodePtr
  | .live _, t => .live t
  | .dangling _, t => .dangling t

/-- Blocks referenced by the nodes of a tree, in in-order. -/
def TreeNode.blocks : TreeNode → List Nat
  | .nil => []
  | .node block left right => left.blocks ++ block :: right.blocks

/-- The tree `s` is one of the nodes of `t` (with everything below it). -/
def TreeNode.hasNode : TreeNode → TreeNode → Prop
  | .nil, _ => False
  | .node block left right, s =>
    s = .node block left right ∨ left.hasNode s ∨ right.hasNode s

/-- Source `MemoryManager::insertBlock`. -/
def insertBlock (mem : Pool) : TreeNode → Nat → TreeNode
  | .nil, block => .node block .nil .nil
  | .node nb left right, block =>
    if (mem block).size < (mem nb).size then
      .node nb (insertBlock mem left block) right
    else
      .node nb left (insertBlock mem right block)

/-- Source `MemoryManager::findBestFit`; the result is the node found. -/
def findBestFit (mem : Pool) : TreeNode → Nat → TreeNode
  | .nil, _ => .nil
  | .node block left right, size =>
    if size ≤ (mem block).size ∧ (mem block).free = true then
      match findBestFit mem left size with
      | .nil => .node block left right
      | .node lb ll lr =>
        if (mem lb).size < (mem block).size then .node lb ll lr
        else .node block left right
    else
      findBestFit mem right size

/-- Source `MemoryManager::findMin`: follow `left` while it is not null. -/
def findMin : TreeNode → TreeNode
  | .nil => .nil
  | .node block .nil right => .node block .nil right
  | .node _ (.node lb ll lr) _ => findMin (.node lb ll lr)

/-- Source `MemoryManager::removeBlock`. In the two-children case `findMin`
is applied to a non-null `root->right`, so its result is a node; the `nil`
alternative of the inner match is never taken. -/
def removeBlock (mem : Pool) : TreeNode → Nat → TreeNode
  | .nil, _ => .nil
  | .node rb left right, block =>
    if (mem block).size < (mem rb).size then
      .node rb (removeBlock mem left block) right
    else if (mem rb).size < (mem block).size then
      .node rb left (removeBlock mem right block)
    else
      match left, right with
      | .nil, r => r
      | l, .nil => l
      | l, r =>
        match findMin r with
        | .nil => .node rb l r
        | .node tb _ _ => .node tb l (removeBlock mem r tb)

/-- Ordering of the size index in the weak form of the specification: nothing
on the left is larger than the node, nothing on the right is smaller. -/
def WeakOrdered (mem : Pool) : TreeNode → Prop
  | .nil => True
  | .node block left right =>
    (∀ a ∈ left.blocks, (mem a).size ≤ (mem block).size) ∧
    (∀ a ∈ right.blocks, (mem block).size ≤ (mem a).size) ∧
    WeakOrdered mem left ∧ WeakOrdered mem right

/-- Ordering invariant of the size index as `insertBlock` builds it: every
block on the left is strictly smaller than the node, no block on the right is
smaller. -/
def Ordered (mem : Pool) : TreeNode → Prop
  | .nil => True
  | .node block left right =>
    (∀ a ∈ left.blocks, (mem a).size < (mem block).size) ∧
    (∀ a ∈ right.blocks, (mem block).size ≤ (mem a).size) ∧
    Ordered mem left ∧ Ordered mem right

/-- The index obtained from the empty tree by calling `insertBlock` on the
blocks of `bs`, first to last. -/
def buildTree (mem : Pool) (bs : List Nat) : TreeNode :=
  bs.foldl (insertBlock mem) .nil

/-- Test used by `removeBlock` to recognise the node to delete: the block has
the same size as `block`. -/
def sameSize (mem : Pool) (block : Nat) : Nat → Bool :=
  fun a => decide ((mem a).size = (mem block).size)

/-- First `if` statement of `MemoryManager::coalesce` (merge with the
successor), statement by statement; every read is made in the memory left by
the statements before it. -/
def coalesceNext (mem : Pool) (block : Nat) : Pool :=
  match (mem block).next with
  | none => mem
  | some n =>
    if (mem n).free = true then
      let a := setSize mem block
        (((mem block).size + ((mem n).size + headerSize) % SIZE_MOD) % SIZE_MOD)
      let b := setNext a block (a n).next
      match (b block).next with
      | none => b
      | some nn => setPrev b nn (some block)
    else mem

/-- Second `if` statement of `MemoryManager::coalesce` (merge into the
predecessor), statement by statement. -/
def coalescePrev (mem : Pool) (block : Nat) : Pool :=
  match (mem block).prev with
  | none => mem
  | some p =>
    if (mem p).free = true then
      let a := setSize mem p
        (((mem p).size + ((mem block).size + headerSize) % SIZE_MOD) % SIZE_MOD)
      let b := setNext a p (a block).next
      match (b block).next with
      | none => b
      | some nn => setPrev b nn (some p)
    else mem

/-- Source `MemoryManager::coalesce`: its two `if` statements in sequence. -/
def coalesce (mem : Pool) (block : Nat) : Pool :=
  coalescePrev (coalesceNext mem block) block

/-- The ledger part of the split in `MemoryManager::mymalloc` (the body of the
`if` without the call of `insertBlock`), statement by statement. -/
def splitBlock (mem : Pool) (block : Nat) (size : Nat) : Pool :=
  let newBlock := block + headerSize + size
  let m1 := setSize mem newBlock
    ((((mem block).size + SIZE_MOD - size % SIZE_MOD) % SIZE_MOD + SIZE_MOD - headerSize)
      % SIZE_MOD)
  let m2 := setFree m1 newBlock true
  let m3 := setNext m2 newBlock (m2 block).next
  let m4 := setPrev m3 newBlock (some block)
  let m5 : Pool :=
    match (m4 block).next with
    | none => m4
    | some n => setPrev m4 n (some newBlock)
  let m6 := setSize m5 block (size % SIZE_MOD)
  setNext m6 block (some newBlock)

/-- Whether `removeBlock(root, block)` ends in `delete root` for the node it
was called on: the sizes are equal and one of the children is null. -/
def deletesRoot (mem : Pool) : TreeNode → Nat → Bool
  | .nil, _ => false
  | .node rb left right, block =>
    if (mem block).size < (mem rb).size then false
    else if (mem rb).size < (mem block).size then false
    else
      match left, right with
      | .nil, _ => true
      | _, .nil => true
      | _, _ => false

/-- The statement `removeBlock(treeRoot, block);` of `mymalloc`, `t` being the
tree read through `root`. The nodes are updated in place and the returned root
is dropped: `treeRoot` keeps its value. When the call deleted the node
`treeRoot` points to, `treeRoot` dangles (the fields of the node were not
written before the `delete`); otherwise the function returned `root` itself
and the tree below `treeRoot` is the returned one. -/
def callRemoveBlock (mem : Pool) (root : NodePtr) (t : TreeNode) (block : Nat) : NodePtr :=
  if deletesRoot mem t block = true then .dangling t
  else root.update (removeBlock mem t block)

/-- The statement `insertBlock(treeRoot, block);` of `mymalloc` and `myfree`.
On a null `treeRoot` the fresh node is returned and dropped; otherwise the
block is linked in place below the node `treeRoot` points to, which is read by
the first comparison. -/
def callInsertBlock (freed : FreedRead) (mem : Pool) (root : NodePtr) (block : Nat) :
    Option NodePtr :=
  match root.read freed with
  | none => none
  | some .nil => some root
  | some (.node nb l r) => some (root.update (insertBlock mem (.node nb l r) block))

/-- State of `class MemoryManager`; `memoryPool` is offset `0` of `pool`. -/
structure MemoryManager where
  freeList : Option Nat
  treeRoot : NodePtr
  pool : Pool
  poolSize : Nat

/-- Constructor `MemoryManager::MemoryManager(size)`; `arena` is the content
of the memory returned by `malloc`. -/
def MemoryManager.construct (size : Nat) (arena : Pool) : MemoryManager :=
  let m1 := setSize arena 0 ((size + SIZE_MOD - headerSize) % SIZE_MOD)
  let m2 := setFree m1 0 true
  let m3 := setPrev (setNext m2 0 none) 0 none
  { freeList := some 0
    treeRoot := .live (insertBlock m3 .nil 0)
    pool := m3
    poolSize := size }

/-- Source `MemoryManager::mymalloc`. The outer `Option` is `none` when the
call makes a read that is not defined (a deleted tree node, on the reading
`FreedRead.undefined`); the inner one is the returned pointer. -/
def mymalloc (freed : FreedRead) (m : MemoryManager) (size : Nat) :
    Option (MemoryManager × Option Nat) :=
  match m.treeRoot.read freed with
  | none => none
  | some t =>
    match findBestFit m.pool t size with
    | .nil => some (m, none)
    | .node block _ _ =>
      let root1 := callRemoveBlock m.pool m.treeRoot t block
      if (size + headerSize) % SIZE_MOD < (m.pool block).size then
        let mem1 := splitBlock m.pool block size
        match callInsertBlock freed mem1 root1 (block + headerSize + size) with
        | none => none
        | some root2 =>
          some ({ m with pool := setFree mem1 block false, treeRoot := root2 },
            some (block + headerSize))
      else
        some ({ m with pool := setFree m.pool block false, treeRoot := root1 },
          some (block + headerSize))

/-- Source `MemoryManager::myfree`; `none` when the call makes a read that is
not defined. -/
def myfree (freed : FreedRead) (m : MemoryManager) (ptr : Option Nat) :
    Option MemoryManager :=
  match ptr with
  | none => some m
  | some p =>
    let block := p - headerSize
    let mem1 := setFree m.pool block true
    let mem2 := coalesce mem1 block
    match callInsertBlock freed mem2 m.treeRoot block with
    | none => none
    | some root => some { m with pool := mem2, treeRoot := root }

/-- First element of a run of blocks, or `nx` when the run is empty. -/
def headOr (l : List Nat) (nx : Option Nat) : Option Nat :=
  match l with
  | [] => nx
  | b :: _ => some b

/-- Start offset of a run of blocks, or `e` when the run is empty. -/
def startOr (l : List Nat) (e : Nat) : Nat :=
  match l with
  | [] => e
  | b :: _ => b

/-- The blocks of `l` are linked to one another in this order: the first has
`prev = pv`, the last has `next = nx`, every other link is the neighbour in
the list. -/
def Seg (mem : Pool) : Option Nat → List Nat → Option Nat → Prop
  | _, [], _ => True
  | pv, a :: rest, nx =>
    (mem a).prev = pv ∧ (mem a).next = headOr rest nx ∧ Seg mem (some a) rest nx

/-- Every block of `l` ends where the next one starts, the last one at `e`. -/
def Tiled (mem : Pool) : List Nat → Nat → Prop
  | [], _ => True
  | a :: rest, e =>
    a + headerSize + (mem a).size = startOr rest e ∧ Tiled mem rest e

/-- Link consistency of the ledger `l`: it starts at the arena start, the
`next`/`prev` fields are the neighbours in `l` (absent exactly for the first
`prev` and the last `next`), and the addresses ascend strictly. -/
def LinksOK (mem : Pool) (l : List Nat) : Prop :=
  l.head? = some 0 ∧ Seg mem none l none ∧ l.Pairwise (· < ·)

/-- The ledger `l` is link consistent and tiles an arena of `cap` bytes. -/
def LedgerOK (mem : Pool) (cap : Nat) (l : List Nat) : Prop :=
  LinksOK mem l ∧ Tiled mem l cap

/-- The blocks reached from `a` by following `next`, at most `fuel` of them. -/
def walk (mem : Pool) : Nat → Option Nat → List Nat
  | 0, _ => []
  | _ + 1, none => []
  | fuel + 1, some a => a :: walk mem fuel (mem a).next

/-- Last element of a run of blocks, or `pv` when the run is empty. -/
def lastOr : List Nat → Option Nat → Option Nat
  | [], pv => pv
  | a :: rest, _ => lastOr rest (some a)

/-- Proof device: the common shape of the two merges of `coalesce`. The block
`x` takes over its successor `y`: it grows by the extent of `y`, inherits the
`next` of `y`, and that block, when present, gets `x` as `prev`. Theorems
`coalesceNext_eq` and `coalescePrev_eq` relate `coalesce` to it. -/
def absorb (mem : Pool) (x y : Nat) : Pool :=
  let a := setSize mem x (((mem x).size + ((mem y).size + headerSize) % SIZE_MOD) % SIZE_MOD)
  let b := setNext a x (mem y).next
  match (mem y).next with
  | none => b
  | some nn => setPrev b nn (some x)

/-- Whether `coalesce` on `block` takes its first branch: the successor exists
and is free. -/
def mergesNext (mem : Pool) (block : Nat) : Bool :=
  match (mem block).next with
  | none => false
  | some n => (mem n).free

/-- Whether `coalesce` on `block` takes its second branch: the predecessor
exists and is free. -/
def mergesPrev (mem : Pool) (block : Nat) : Bool :=
  match (mem block).prev with
  | none => false
  | some p => (mem p).free

instance decHasNode : (t s : TreeNode) → Decidable (t.hasNode s)
  | .nil, _ => isFalse (fun h => h)
  | .node block left right, s =>
    have := decHasNode left s
    have := decHasNode right s
    decidable_of_iff (s = .node block left right ∨ left.hasNode s ∨ right.hasNode s) Iff.rfl

instance decWeakOrdered (mem : Pool) : (t : TreeNode) → Decidable (WeakOrdered mem t)
  | .nil => isTrue trivial
  | .node block left right =>
    have := decWeakOrdered mem left
    have := decWeakOrdered mem right
    decidable_of_iff ((∀ a ∈ left.blocks, (mem a).size ≤ (mem block).size) ∧
      (∀ a ∈ right.blocks, (mem block).size ≤ (mem a).size) ∧
      WeakOrdered mem left ∧ WeakOrdered mem right) Iff.rfl

instance decSeg (mem : Pool) : (pv : Option Nat) → (l : List Nat) → (nx : Option Nat) →
    Decidable (Seg mem pv l nx)
  | _, [], _ => isTrue trivial
  | pv, a :: rest, nx =>
    have := decSeg mem (some a) rest nx
    decidable_of_iff ((mem a).prev = pv ∧ (mem a).next = headOr rest nx ∧
      Seg mem (some a) rest nx) Iff.rfl

instance decTiled (mem : Pool) : (l : List Nat) → (e : Nat) → Decidable (Tiled mem l e)
  | [], _ => isTrue trivial
  | a :: rest, e =>
    have := decTiled mem rest e
    decidable_of_iff (a + headerSize + (mem a).size = startOr rest e ∧ Tiled mem rest e) Iff.rfl

instance decLinksOK (mem : Pool) (l : List Nat) : Decidable (LinksOK mem l) := by
  unfold LinksOK
  infer_instance

instance decLedgerOK (mem : Pool) (cap : Nat) (l : List Nat) : Decidable (LedgerOK mem cap l) := by
  unfold LedgerOK
  infer_instance

/-- An arena whose bytes are all zero. -/
def zeroPool : Pool := fun _ => ⟨0, false, none, none⟩

/-- An arena of 942 bytes holding three free blocks of sizes 500, 150 and 100
(at 0, 580 and 810), separated by used blocks of 16 bytes (at 532 and 762). -/
def poolBestFit : Pool := fun a =>
  if a = 0 then ⟨500, true, some 532, none⟩
  else if a = 532 then ⟨16, false, some 580, some 0⟩
  else if a = 580 then ⟨150, true, some 762, some 532⟩
  else if a = 762 then ⟨16, false, some 810, some 580⟩
  else if a = 810 then ⟨100, true, none, some 762⟩
  else ⟨0, false, none, none⟩

/-- The index obtained by inserting the three free blocks of `poolBestFit`. -/
def treeBestFit : TreeNode :=
  insertBlock poolBestFit (insertBlock poolBestFit (insertBlock poolBestFit .nil 0) 580) 810

/-- A manager over `poolBestFit` whose index holds its three free blocks. -/
def stateBestFit : MemoryManager :=
  { freeList := some 0, treeRoot := .live treeBestFit, pool := poolBestFit, poolSize := 942 }

/-- The state `mymalloc stateBestFit 50` leaves: the block at 810 is cut to
50 bytes and the remainder at 892 enters the index. -/
def stateBestFitAfter : MemoryManager :=
  { freeList := some 0
    treeRoot := .live (.node 0 (.node 580 (.node 892 .nil .nil) .nil) .nil)
    pool := setFree (splitBlock poolBestFit 810 50) 810 false
    poolSize := 942 }

/-- Source `main` without the `memset` calls (payload bytes are not part of
the model): three allocations, then the releases of the second, the first and
the third pointer. -/
def main (freed : FreedRead) : Option MemoryManager := do
  let memoryManager := MemoryManager.construct 2048 zeroPool
  let (m1, ptr1) ← mymalloc freed memoryManager 200
  let (m2, ptr2) ← mymalloc freed m1 300
  let (m3, ptr3) ← mymalloc freed m2 100
  let m4 ← myfree freed m3 ptr2
  let m5 ← myfree freed m4 ptr1
  myfree freed m5 ptr3

/-- A client that runs the calls of `main` and then allocates 100 bytes once
more and releases them again. Every release is made on a pointer that was
returned by `mymalloc` and has not been released before. -/
def mainThenReuse (freed : FreedRead) : Option (MemoryManager × Option Nat) := do
  let m6 ← main freed
  let (m7, ptr4) ← mymalloc freed m6 100
  let m8 ← myfree freed m7 ptr4
  pure (m8, ptr4)

/-- An arena of 446 bytes tiled by a free block of 100 bytes at 0, a used
block of 50 bytes at 132 and a free block of 200 bytes at 214. -/
def poolSandwich : Pool := fun a =>
  if a = 0 then ⟨100, true, some 132, none⟩
  else if a = 132 then ⟨50, false, some 214, some 0⟩
  else if a = 214 then ⟨200, true, none, some 132⟩
  else ⟨0, false, none, none⟩

/-- A manager over `poolSandwich` whose index holds exactly its two free
blocks, inserted in address order. -/
def stateSandwich : MemoryManager :=
  { freeList := some 0
    treeRoot := .live (insertBlock poolSandwich (insertBlock poolSandwich .nil 0) 214)
    pool := poolSandwich
    poolSize := 446 }

/-- An arena of 446 bytes tiled by a free block of 100 bytes at 0, a used
block of 150 bytes at 132 and a second free block of 100 bytes at 314. -/
def poolTwins : Pool := fun a =>
  if a = 0 then ⟨100, true, some 132, none⟩
  else if a = 132 then ⟨150, false, some 314, some 0⟩
  else if a = 314 then ⟨100, true, none, some 132⟩
  else ⟨0, false, none, none⟩

/-- The index built by `insertBlock` from the two free blocks of `poolTwins`. -/
def treeTwins : TreeNode :=
  insertBlock poolTwins (insertBlock poolTwins .nil 0) 314

/-- The tree `t2` is `t` with one null child replaced by a leaf that holds
`b`: every node of `t` is in `t2` where it was, with the same block. -/
def leafAdded : TreeNode → Nat → TreeNode → Prop
  | .nil, b, t2 => t2 = .node b .nil .nil
  | .node _ _ _, _, .nil => False
  | .node x l r, b, .node x2 l2 r2 =>
    x2 = x ∧ ((r2 = r ∧ leafAdded l b l2) ∨ (l2 = l ∧ leafAdded r b r2))

/-- The nodes `insertBlock` visits on its way down, each given by its block
and the side the call descends to (`true` for `right`). -/
def insertPath (mem : Pool) : TreeNode → Nat → List (Nat × Bool)
  | .nil, _ => []
  | .node nb left right, block =>
    if (mem block).size < (mem nb).size then (nb, false) :: insertPath mem left block
    else (nb, true) :: insertPath mem right block

/-- The tree `t` with a leaf for `b` hung on the null child that the sides of
`path` lead to. -/
def graft : TreeNode → List Bool → Nat → TreeNode
  | .nil, _, b => .node b .nil .nil
  | .node x l r, [], _ => .node x l r
  | .node x l r, false :: path, b => .node x (graft l path b) r
  | .node x l r, true :: path, b => .node x l (graft r path b)

instance decOrdered (mem : Pool) : (t : TreeNode) → Decidable (Ordered mem t)
  | .nil => isTrue trivial
  | .node block left right =>
    have := decOrdered mem left
    have := decOrdered mem right
    decidable_of_iff ((∀ a ∈ left.blocks, (mem a).size < (mem block).size) ∧
      (∀ a ∈ right.blocks, (mem block).size ≤ (mem a).size) ∧
      Ordered mem left ∧ Ordered mem right) Iff.rfl

/-- A client of the 232 byte arena: one allocation of 200 bytes, then one of
1 byte while the first pointer is live. -/
def exhaustion (freed : FreedRead) : Option (MemoryManager × Option Nat × Option Nat) := do
  let memoryManager := MemoryManager.construct 232 zeroPool
  let (m1, ptr1) ← mymalloc freed memoryManager 200
  let (m2, ptr2) ← mymalloc freed m1 1
  pure (m2, ptr1, ptr2)

/-- A client of a fresh arena of 2048 bytes: it allocates 200 bytes, releases
them, and then allocates 2000 and 100 bytes; the two pointers it returns are
both live at the end. -/
def reuseClient (freed : FreedRead) : Option (MemoryManager × Option Nat × Option Nat) := do
  let memoryManager := MemoryManager.construct 2048 zeroPool
  let (m1, ptr1) ← mymalloc freed memoryManager 200
  let m2 ← myfree freed m1 ptr1
  let (m3, ptr2) ← mymalloc freed m2 2000
  let (m4, ptr3) ← mymalloc freed m3 100
  pure (m4, ptr2, ptr3)

/-- A client of `stateSandwich`: it releases the used block at 132 (pointer
164) and then allocates 150 and 300 bytes; the two pointers it returns are
both live at the end. -/
def sandwichClient (freed : FreedRead) : Option (MemoryManager × Option Nat × Option Nat) := do
  let m1 ← myfree freed stateSandwich (some 164)
  let (m2, ptr1) ← mymalloc freed m1 150
  let (m3, ptr2) ← mymalloc freed m2 300
  pure (m3, ptr1, ptr2)

/-- Whether the payload ranges `[p, p + size)` of the two pointers, with the
sizes read from the headers in front of them, have a byte in common. -/
def payloadsOverlap (mem : Pool) (p q : Nat) : Bool :=
  decide (p < q + (mem (q - headerSize)).size ∧ q < p + (mem (p - headerSize)).size)

/-- No two blocks that follow one another in the ledger `l` are both free. -/
def NoAdjFree (mem : Pool) : List Nat → Prop
  | [] => True
  | [_] => True
  | a :: c :: rest =>
    ¬ ((mem a).free = true ∧ (mem c).free = true) ∧ NoAdjFree mem (c :: rest)

instance decNoAdjFree (mem : Pool) : (l : List Nat) → Decidable (NoAdjFree mem l)
  | [] => isTrue trivial
  | [_] => isTrue trivial
  | a :: c :: rest =>
    have := decNoAdjFree mem (c :: rest)
    decidable_of_iff (¬ ((mem a).free = true ∧ (mem c).free = true) ∧
      NoAdjFree mem (c :: rest)) Iff.rfl

/-- An arena of 527 bytes tiled by a free block of 1 byte at 0, a used block
of 16 bytes at 33, a free block of 100 bytes at 81 and used blocks of 50 bytes
at 213 and of 200 bytes at 295. -/
def poolAbsorbed : Pool := fun a =>
  if a = 0 then ⟨1, true, some 33, none⟩
  else if a = 33 then ⟨16, false, some 81, some 0⟩
  else if a = 81 then ⟨100, true, some 213, some 33⟩
  else if a = 213 then ⟨50, false, some 295, some 81⟩
  else if a = 295 then ⟨200, false, none, some 213⟩
  else ⟨0, false, none, none⟩

/-- A manager over `poolAbsorbed` whose index holds exactly its two free
blocks, inserted in address order. -/
def stateAbsorbed : MemoryManager :=
  { freeList := some 0
    treeRoot := .live (insertBlock poolAbsorbed (insertBlock poolAbsorbed .nil 0) 81)
    pool := poolAbsorbed
    poolSize := 527 }

/-- A client of `stateAbsorbed`: it releases the used block at 213 (pointer
245), allocates 142 and 8 bytes and releases the first of the two pointers. -/
def absorbedSetup (freed : FreedRead) : Option (MemoryManager × Option Nat × Option Nat) := do
  let m1 ← myfree freed stateAbsorbed (some 245)
  let (m2, ptr1) ← mymalloc freed m1 142
  let (m3, ptr2) ← mymalloc freed m2 8
  let m4 ← myfree freed m3 ptr1
  pure (m4, ptr1, ptr2)

/-- The client `absorbedSetup` followed by an allocation of 10 bytes. -/
def absorbedClient (freed : FreedRead) : Option (MemoryManager × Option Nat) := do
  let (m4, _, _) ← absorbedSetup freed
  mymalloc freed m4 10


theorem findBestFit_nil_iff (mem : Pool) (t : TreeNode) (size : Nat)
    (hord : WeakOrdered mem t) (hfree : ∀ a ∈ t.blocks, (mem a).free = true) :
    findBestFit mem t size = .nil ↔ ∀ a ∈ t.blocks, (mem a).size < size := by
  induction t with
  | nil => simp [findBestFit, TreeNode.blocks]
  | node block left right ihl ihr =>
    obtain ⟨hl, hr, hol, hor⟩ := hord
    have hfl : ∀ a ∈ left.blocks, (mem a).free = true := fun a ha =>
      hfree a (by simp [TreeNode.blocks, ha])
    have hfr : ∀ a ∈ right.blocks, (mem a).free = true := fun a ha =>
      hfree a (by simp [TreeNode.blocks, ha])
    have hfb : (mem block).free = true := hfree block (by simp [TreeNode.blocks])
    unfold findBestFit
    by_cases hq : size ≤ (mem block).size
    · simp only [hq, hfb, and_self, if_true]
      constructor
      · intro h
        exfalso
        cases hlb : findBestFit mem left size with
        | nil => simp [hlb] at h
        | node lb ll lr =>
          simp only [hlb] at h
          split at h <;> simp at h
      · intro h
        have := h block (by simp [TreeNode.blocks])
        omega
    · have hq2 : ¬ (size ≤ (mem block).size ∧ (mem block).free = true) := fun h => hq h.1
      simp only [hq2, if_false]
      rw [ihr hor hfr]
      constructor
      · intro h a ha
        simp only [TreeNode.blocks, List.mem_append, List.mem_cons] at ha
        rcases ha with ha | ha | ha
        · have := hl a ha
          omega
        · subst ha
          omega
        · exact h a ha
      · intro h a ha
        exact h a (by simp [TreeNode.blocks, ha])


theorem findBestFit_sound (mem : Pool) (t : TreeNode) (size : Nat) (b : Nat) (l r : TreeNode)
    (h : findBestFit mem t size = .node b l r) :
    t.hasNode (.node b l r) ∧ b ∈ t.blocks ∧ (mem b).free = true ∧ size ≤ (mem b).size := by
  induction t with
  | nil => simp [findBestFit] at h
  | node block left right ihl ihr =>
    unfold findBestFit at h
    by_cases hq : size ≤ (mem block).size ∧ (mem block).free = true
    · simp only [hq, and_self, if_true] at h
      cases hlb : findBestFit mem left size with
      | nil =>
        simp only [hlb, TreeNode.node.injEq] at h
        obtain ⟨rfl, rfl, rfl⟩ := h
        exact ⟨Or.inl rfl, by simp [TreeNode.blocks], hq.2, hq.1⟩
      | node lb ll lr =>
        simp only [hlb] at h
        by_cases hlt : (mem lb).size < (mem block).size
        · simp only [hlt, if_true, TreeNode.node.injEq] at h
          obtain ⟨rfl, rfl, rfl⟩ := h
          obtain ⟨h1, h2, h3, h4⟩ := ihl hlb
          exact ⟨Or.inr (Or.inl h1), by simp [TreeNode.blocks, h2], h3, h4⟩
        · simp only [hlt, if_false, TreeNode.node.injEq] at h
          obtain ⟨rfl, rfl, rfl⟩ := h
          exact ⟨Or.inl rfl, by simp [TreeNode.blocks], hq.2, hq.1⟩
    · simp only [hq, if_false] at h
      obtain ⟨h1, h2, h3, h4⟩ := ihr h
      exact ⟨Or.inr (Or.inr h1), by simp [TreeNode.blocks, h2], h3, h4⟩

theorem findBestFit_least (mem : Pool) (t : TreeNode) (size : Nat)
    (hord : WeakOrdered mem t) (hfree : ∀ a ∈ t.blocks, (mem a).free = true)
    (b : Nat) (l r : TreeNode) (h : findBestFit mem t size = .node b l r) :
    ∀ a ∈ t.blocks, size ≤ (mem a).size → (mem b).size ≤ (mem a).size := by
  induction t generalizing b l r with
  | nil => simp [findBestFit] at h
  | node block left right ihl ihr =>
    obtain ⟨hl, hr, hol, hor⟩ := hord
    have hfl : ∀ a ∈ left.blocks, (mem a).free = true := fun a ha =>
      hfree a (by simp [TreeNode.blocks, ha])
    have hfr : ∀ a ∈ right.blocks, (mem a).free = true := fun a ha =>
      hfree a (by simp [TreeNode.blocks, ha])
    have hfb : (mem block).free = true := hfree block (by simp [TreeNode.blocks])
    intro a ha hsa
    simp only [TreeNode.blocks, List.mem_append, List.mem_cons] at ha
    unfold findBestFit at h
    by_cases hq : size ≤ (mem block).size
    · simp only [hq, hfb, and_self, if_true] at h
      cases hlb : findBestFit mem left size with
      | nil =>
        simp only [hlb, TreeNode.node.injEq] at h
        obtain ⟨rfl, rfl, rfl⟩ := h
        rcases ha with ha | ha | ha
        · have := (findBestFit_nil_iff mem left size hol hfl).1 hlb a ha
          omega
        · subst ha
          exact le_refl _
        · exact hr a ha
      | node lb ll lr =>
        simp only [hlb] at h
        have hmin := ihl hol hfl lb ll lr hlb
        by_cases hlt : (mem lb).size < (mem block).size
        · simp only [hlt, if_true, TreeNode.node.injEq] at h
          obtain ⟨rfl, rfl, rfl⟩ := h
          rcases ha with ha | ha | ha
          · exact hmin a ha hsa
          · subst ha
            omega
          · have := hr a ha
            omega
        · simp only [hlt, if_false, TreeNode.node.injEq] at h
          obtain ⟨rfl, rfl, rfl⟩ := h
          rcases ha with ha | ha | ha
          · have := hmin a ha hsa
            omega
          · subst ha
            exact le_refl _
          · exact hr a ha
    · have hq2 : ¬ (size ≤ (mem block).size ∧ (mem block).free = true) := fun h => hq h.1
      simp only [hq2, if_false] at h
      rcases ha with ha | ha | ha
      · have := hl a ha
        omega
      · subst ha
        omega
      · exact ihr hor hfr b l r h a ha hsa

/-- C4. Best fit: on a size index that satisfies the ordering invariant (already
in its weak form, left sizes at most the node's, right sizes at least the
node's) and whose blocks are all free, `findBestFit` returns no node exactly
when no block of the tree has size at least the request, and a returned node is
a node of the tree whose block is large enough and of minimum size among the
blocks of the tree that are large enough. -/
theorem findBestFit_best (mem : Pool) (t : TreeNode) (size : Nat)
    (hord : WeakOrdered mem t) (hfree : ∀ a ∈ t.blocks, (mem a).free = true) :
    (findBestFit mem t size = .nil ↔ ∀ a ∈ t.blocks, (mem a).size < size) ∧
    (∀ b l r, findBestFit mem t size = .node b l r →
      t.hasNode (.node b l r) ∧ b ∈ t.blocks ∧ size ≤ (mem b).size ∧
      ∀ a ∈ t.blocks, size ≤ (mem a).size → (mem b).size ≤ (mem a).size) :=
  ⟨findBestFit_nil_iff mem t size hord hfree, fun b l r h =>
    ⟨(findBestFit_sound mem t size b l r h).1, (findBestFit_sound mem t size b l r h).2.1,
      (findBestFit_sound mem t size b l r h).2.2.2,
      findBestFit_least mem t size hord hfree b l r h⟩⟩

/-- C4, concrete case of the specification: with free blocks of sizes 500, 150
and 100 in the index, a request for 120 selects the block of size 150. -/
theorem findBestFit_best_witness :
    treeBestFit.blocks = [810, 580, 0] ∧
    findBestFit poolBestFit treeBestFit 120 = .node 580 (.node 810 .nil .nil) .nil ∧
    (poolBestFit 580).size = 150 ∧
    ((findBestFit poolBestFit treeBestFit 120 = .nil ↔
        ∀ a ∈ treeBestFit.blocks, (poolBestFit a).size < 120) ∧
      (∀ b l r, findBestFit poolBestFit treeBestFit 120 = .node b l r →
        treeBestFit.hasNode (.node b l r) ∧ b ∈ treeBestFit.blocks ∧
        120 ≤ (poolBestFit b).size ∧
        ∀ a ∈ treeBestFit.blocks, 120 ≤ (poolBestFit a).size →
          (poolBestFit b).size ≤ (poolBestFit a).size)) :=
  ⟨by decide, by decide, by decide,
    findBestFit_best poolBestFit treeBestFit 120 (by decide) (by decide)⟩

/-- C5. OutOfMemory is atomic: when `findBestFit` finds no block in the index
read through `treeRoot`, `mymalloc` returns the null pointer and the state it
leaves is the state it was given (every header of the arena, the index, all
members). -/
theorem mymalloc_out_of_memory (freed : FreedRead) (m : MemoryManager) (t : TreeNode)
    (size : Nat) (hroot : m.treeRoot.read freed = some t)
    (hnone : findBestFit m.pool t size = .nil) :
    mymalloc freed m size = some (m, none) := by
  simp [mymalloc, hroot, hnone]

/-- C5 at a concrete state: a fresh arena of 232 bytes and a request for 500. -/
theorem mymalloc_out_of_memory_witness :
    findBestFit (MemoryManager.construct 232 zeroPool).pool (.node 0 .nil .nil) 500 = .nil ∧
    mymalloc .undefined (MemoryManager.construct 232 zeroPool) 500
      = some (MemoryManager.construct 232 zeroPool, none) :=
  ⟨by decide, mymalloc_out_of_memory .undefined (MemoryManager.construct 232 zeroPool)
    (.node 0 .nil .nil) 500 rfl (by decide)⟩

/-- C1. The tiling invariant does not survive every call sequence on a fresh
arena of 2048 bytes. The first allocation (200 bytes) has no defined result:
`removeBlock` deletes the only tree node, the returned root is dropped, and the
`insertBlock` call of the split reads the deleted node through `treeRoot`. On
the lenient reading the calls of `main`, one more allocation of 100 bytes and
its release follow one another; that allocation returns a block that had been
merged away (pointer 596) and after its release the only ledger block has
`headerSize + size = 3532`, not 2048. -/
theorem fresh_sequence_breaks_tiling :
    callRemoveBlock (MemoryManager.construct 2048 zeroPool).pool
        (MemoryManager.construct 2048 zeroPool).treeRoot (.node 0 .nil .nil) 0
      = .dangling (.node 0 .nil .nil) ∧
    mymalloc .undefined (MemoryManager.construct 2048 zeroPool) 200 = none ∧
    (mainThenReuse .intact).map
        (fun r => (r.2, r.1.poolSize, walk r.1.pool 8 (some 0), (r.1.pool 0).size))
      = some (some 596, 2048, [0], 3500) ∧
    ¬ Tiled ((mainThenReuse .intact).map (fun r => r.1.pool) |>.getD zeroPool) [0] 2048 :=
  ⟨by decide, rfl, by decide, by decide⟩

/-- C2. The first allocation on a fresh arena of 232 bytes returns offset 32
without a split and leaves `treeRoot` pointing to the deleted root node; what
that node last held is the block at 0, which is now used. No index is
reachable from the root afterwards, and a read of the deleted node would find
the block that was handed out. -/
theorem first_mymalloc_dangling_root :
    (mymalloc .undefined (MemoryManager.construct 232 zeroPool) 200).map
        (fun r => (r.1.treeRoot, r.2, (r.1.pool 0).free, walk r.1.pool 4 (some 0)))
      = some (.dangling (.node 0 .nil .nil), some 32, false, [0]) := by
  decide

/-- C3. Releasing the used block at 132 of `stateSandwich` (pointer 164) merges
all three blocks into the block at 0, which becomes the whole ledger with 414
bytes; the block given to `insertBlock` is the absorbed block at 132, and the
absorbed block at 214 stays in the index as well. -/
theorem myfree_inserts_absorbed_block :
    (myfree .undefined stateSandwich (some 164)).map
        (fun m => (m.treeRoot, walk m.pool 4 (some 0), (m.pool 0).size, (m.pool 0).free))
      = some (.live (.node 0 (.node 132 .nil .nil) (.node 214 .nil .nil)), [0], 414, true) := by
  decide

/-- C8. The allocate and release sequence of `main` (capacity 2048; allocate
200, 300, 100; release the second, the first, the third) has no defined
result: its first allocation already reads a deleted tree node. -/
theorem main_undefined : main .undefined = none := by
  rfl

/-! ### Reading the arena after an assignment -/

theorem setSize_size (mem : Pool) (a v z : Nat) :
    (setSize mem a v z).size = if z = a then v else (mem z).size := by
  by_cases h : z = a <;> simp [setSize, Pool.store, h]

theorem setSize_free (mem : Pool) (a v z : Nat) : (setSize mem a v z).free = (mem z).free := by
  by_cases h : z = a <;> simp [setSize, Pool.store, h]

theorem setSize_next (mem : Pool) (a v z : Nat) : (setSize mem a v z).next = (mem z).next := by
  by_cases h : z = a <;> simp [setSize, Pool.store, h]

theorem setSize_prev (mem : Pool) (a v z : Nat) : (setSize mem a v z).prev = (mem z).prev := by
  by_cases h : z = a <;> simp [setSize, Pool.store, h]

theorem setFree_size (mem : Pool) (a : Nat) (v : Bool) (z : Nat) :
    (setFree mem a v z).size = (mem z).size := by
  by_cases h : z = a <;> simp [setFree, Pool.store, h]

theorem setFree_free (mem : Pool) (a : Nat) (v : Bool) (z : Nat) :
    (setFree mem a v z).free = if z = a then v else (mem z).free := by
  by_cases h : z = a <;> simp [setFree, Pool.store, h]

theorem setFree_next (mem : Pool) (a : Nat) (v : Bool) (z : Nat) :
    (setFree mem a v z).next = (mem z).next := by
  by_cases h : z = a <;> simp [setFree, Pool.store, h]

theorem setFree_prev (mem : Pool) (a : Nat) (v : Bool) (z : Nat) :
    (setFree mem a v z).prev = (mem z).prev := by
  by_cases h : z = a <;> simp [setFree, Pool.store, h]

theorem setNext_size (mem : Pool) (a : Nat) (v : Option Nat) (z : Nat) :
    (setNext mem a v z).size = (mem z).size := by
  by_cases h : z = a <;> simp [setNext, Pool.store, h]

theorem setNext_free (mem : Pool) (a : Nat) (v : Option Nat) (z : Nat) :
    (setNext mem a v z).free = (mem z).free := by
  by_cases h : z = a <;> simp [setNext, Pool.store, h]

theorem setNext_next (mem : Pool) (a : Nat) (v : Option Nat) (z : Nat) :
    (setNext mem a v z).next = if z = a then v else (mem z).next := by
  by_cases h : z = a <;> simp [setNext, Pool.store, h]

theorem setNext_prev (mem : Pool) (a : Nat) (v : Option Nat) (z : Nat) :
    (setNext mem a v z).prev = (mem z).prev := by
  by_cases h : z = a <;> simp [setNext, Pool.store, h]

theorem setPrev_size (mem : Pool) (a : Nat) (v : Option Nat) (z : Nat) :
    (setPrev mem a v z).size = (mem z).size := by
  by_cases h : z = a <;> simp [setPrev, Pool.store, h]

theorem setPrev_free (mem : Pool) (a : Nat) (v : Option Nat) (z : Nat) :
    (setPrev mem a v z).free = (mem z).free := by
  by_cases h : z = a <;> simp [setPrev, Pool.store, h]

theorem setPrev_next (mem : Pool) (a : Nat) (v : Option Nat) (z : Nat) :
    (setPrev mem a v z).next = (mem z).next := by
  by_cases h : z = a <;> simp [setPrev, Pool.store, h]

theorem setPrev_prev (mem : Pool) (a : Nat) (v : Option Nat) (z : Nat) :
    (setPrev mem a v z).prev = if z = a then v else (mem z).prev := by
  by_cases h : z = a <;> simp [setPrev, Pool.store, h]

/-! ### The merge step -/

theorem absorb_size (mem : Pool) (x y z : Nat) :
    (absorb mem x y z).size =
      if z = x then ((mem x).size + ((mem y).size + headerSize) % SIZE_MOD) % SIZE_MOD
      else (mem z).size := by
  unfold absorb
  cases (mem y).next <;> simp [setPrev_size, setNext_size, setSize_size]

theorem absorb_free (mem : Pool) (x y z : Nat) : (absorb mem x y z).free = (mem z).free := by
  unfold absorb
  cases (mem y).next <;> simp [setPrev_free, setNext_free, setSize_free]

theorem absorb_next (mem : Pool) (x y z : Nat) :
    (absorb mem x y z).next = if z = x then (mem y).next else (mem z).next := by
  unfold absorb
  cases (mem y).next <;> simp [setPrev_next, setNext_next, setSize_next]

theorem absorb_prev (mem : Pool) (x y z : Nat) :
    (absorb mem x y z).prev = if (mem y).next = some z then some x else (mem z).prev := by
  unfold absorb
  cases h : (mem y).next with
  | none => simp [setNext_prev, setSize_prev]
  | some nn =>
    by_cases hz : z = nn
    · simp [setPrev_prev, hz]
    · have hz2 : ¬ nn = z := fun e => hz e.symm
      simp [setPrev_prev, setNext_prev, setSize_prev, hz, hz2]

/-- The first `if` of `coalesce` is the merge step on the block and its
successor. -/
theorem coalesceNext_eq (mem : Pool) (block : Nat) :
    coalesceNext mem block =
      match (mem block).next with
      | none => mem
      | some n => if (mem n).free = true then absorb mem block n else mem := by
  unfold coalesceNext absorb
  cases h1 : (mem block).next with
  | none => rfl
  | some n =>
    simp only [setSize_next, setNext_next, if_true]

/-- The second `if` of `coalesce` is the merge step on the predecessor and the
block. -/
theorem coalescePrev_eq (mem : Pool) (block : Nat) :
    coalescePrev mem block =
      match (mem block).prev with
      | none => mem
      | some p => if (mem p).free = true then absorb mem p block else mem := by
  unfold coalescePrev absorb
  cases h1 : (mem block).prev with
  | none => rfl
  | some p =>
    simp only [setSize_next, setNext_next, ite_self]

/-! ### Runs of blocks -/

theorem headOr_append (xs ys : List Nat) (nx : Option Nat) :
    headOr (xs ++ ys) nx = headOr xs (headOr ys nx) := by
  cases xs <;> rfl

theorem startOr_append (xs ys : List Nat) (e : Nat) :
    startOr (xs ++ ys) e = startOr xs (startOr ys e) := by
  cases xs <;> rfl

theorem headOr_mem (l : List Nat) (a : Nat) (h : headOr l none = some a) : a ∈ l := by
  cases l with
  | nil => simp [headOr] at h
  | cons b rest =>
    simp only [headOr, Option.some.injEq] at h
    simp [h]

theorem lastOr_concat (xs : List Nat) (a : Nat) (pv : Option Nat) :
    lastOr (xs ++ [a]) pv = some a := by
  induction xs generalizing pv with
  | nil => rfl
  | cons b rest ih => simpa [lastOr] using ih (some b)

theorem Seg_append (mem : Pool) (xs ys : List Nat) (pv nx : Option Nat) :
    Seg mem pv (xs ++ ys) nx ↔ Seg mem pv xs (headOr ys nx) ∧ Seg mem (lastOr xs pv) ys nx := by
  induction xs generalizing pv with
  | nil => simp [Seg, lastOr]
  | cons a rest ih =>
    show Seg mem pv (a :: (rest ++ ys)) nx ↔ _
    constructor
    · rintro ⟨h1, h2, h3⟩
      rw [headOr_append] at h2
      exact ⟨⟨h1, h2, ((ih (some a)).1 h3).1⟩, ((ih (some a)).1 h3).2⟩
    · rintro ⟨⟨h1, h2, h3⟩, h4⟩
      exact ⟨h1, by rw [headOr_append]; exact h2, (ih (some a)).2 ⟨h3, h4⟩⟩

theorem Tiled_append (mem : Pool) (xs ys : List Nat) (e : Nat) :
    Tiled mem (xs ++ ys) e ↔ Tiled mem xs (startOr ys e) ∧ Tiled mem ys e := by
  induction xs with
  | nil => simp [Tiled]
  | cons a rest ih =>
    show Tiled mem (a :: (rest ++ ys)) e ↔ _
    constructor
    · rintro ⟨h1, h2⟩
      rw [startOr_append] at h1
      exact ⟨⟨h1, (ih.1 h2).1⟩, (ih.1 h2).2⟩
    · rintro ⟨⟨h1, h2⟩, h3⟩
      exact ⟨by rw [startOr_append]; exact h1, ih.2 ⟨h2, h3⟩⟩

theorem Seg_frame (mem mem' : Pool) (l : List Nat) (pv nx : Option Nat)
    (h : ∀ a ∈ l, (mem' a).prev = (mem a).prev ∧ (mem' a).next = (mem a).next)
    (hs : Seg mem pv l nx) : Seg mem' pv l nx := by
  induction l generalizing pv with
  | nil => trivial
  | cons a rest ih =>
    obtain ⟨h1, h2, h3⟩ := hs
    have ha := h a (by simp)
    exact ⟨ha.1.trans h1, ha.2.trans h2, ih (some a) (fun x hx => h x (by simp [hx])) h3⟩

theorem Tiled_frame (mem mem' : Pool) (l : List Nat) (e : Nat)
    (h : ∀ a ∈ l, (mem' a).size = (mem a).size)
    (hs : Tiled mem l e) : Tiled mem' l e := by
  induction l with
  | nil => trivial
  | cons a rest ih =>
    obtain ⟨h1, h2⟩ := hs
    have ha := h a (by simp)
    exact ⟨by rw [ha]; exact h1, ih (fun x hx => h x (by simp [hx])) h2⟩

theorem Tiled_start_le (mem : Pool) (l : List Nat) (e : Nat) (h : Tiled mem l e) :
    startOr l e ≤ e := by
  induction l with
  | nil => exact le_refl e
  | cons a rest ih =>
    obtain ⟨h1, h2⟩ := h
    have := ih h2
    simp only [startOr]
    omega

theorem walk_of_Seg (mem : Pool) (l : List Nat) (pv : Option Nat) (fuel : Nat)
    (hs : Seg mem pv l none) (hf : l.length ≤ fuel) :
    walk mem fuel (headOr l none) = l := by
  induction l generalizing pv fuel with
  | nil => cases fuel <;> rfl
  | cons a rest ih =>
    obtain ⟨-, h2, h3⟩ := hs
    cases fuel with
    | zero => simp at hf
    | succ f =>
      show a :: walk mem f (mem a).next = a :: rest
      rw [h2, ih (some a) f h3 (by simpa using hf)]

theorem absorb_links (mem : Pool) (pre post : List Nat) (x y : Nat)
    (h : LinksOK mem (pre ++ x :: y :: post)) :
    LinksOK (absorb mem x y) (pre ++ x :: post) := by
  obtain ⟨hhead, hseg, hpw⟩ := h
  rw [Seg_append] at hseg
  obtain ⟨hs1, hpx, hnx, hpy, hny, hs3⟩ := hseg
  rw [List.pairwise_append, List.pairwise_cons, List.pairwise_cons] at hpw
  obtain ⟨hpw1, ⟨hxall, hyall, hpw3⟩, hcross⟩ := hpw
  have hxy : x < y := hxall y (by simp)
  have hxpost : ∀ b ∈ post, x < b := fun b hb => hxall b (by simp [hb])
  have hprex : ∀ a ∈ pre, a < x := fun a ha => hcross a ha x (by simp)
  have hprey : ∀ a ∈ pre, a < y := fun a ha => hcross a ha y (by simp)
  have hnext_mem : ∀ a, (mem y).next = some a → a ∈ post := fun a ha =>
    headOr_mem post a (hny ▸ ha)
  refine ⟨?_, ?_, ?_⟩
  · cases pre <;> simpa using hhead
  · rw [Seg_append]
    refine ⟨?_, ?_, ?_, ?_⟩
    · refine Seg_frame mem _ pre none _ ?_ hs1
      intro a ha
      have h1 := hprex a ha
      have h2 := hprey a ha
      rw [absorb_prev, absorb_next]
      have hne : a ≠ x := by omega
      have hnn : ¬ (mem y).next = some a := fun e => by
        have := hyall a (hnext_mem a e)
        omega
      simp [hne, hnn]
    · rw [absorb_prev]
      have hnn : ¬ (mem y).next = some x := fun e => by
        have := hyall x (hnext_mem x e)
        omega
      simp only [hnn, if_false]
      exact hpx
    · rw [absorb_next]
      simp only [if_true]
      rw [hny]
    · cases post with
      | nil => trivial
      | cons nn post2 =>
        obtain ⟨-, hnnn, hs4⟩ := hs3
        simp only [headOr] at hny
        rw [List.pairwise_cons] at hpw3
        have hxnn : x < nn := hxpost nn (by simp)
        refine ⟨?_, ?_, ?_⟩
        · rw [absorb_prev]
          simp [hny]
        · rw [absorb_next]
          have hne : nn ≠ x := by omega
          simp only [hne, if_false]
          exact hnnn
        · refine Seg_frame mem _ post2 _ _ ?_ hs4
          intro a ha
          have h1 := hxpost a (by simp [ha])
          have h2 := hpw3.1 a ha
          rw [absorb_prev, absorb_next, hny]
          have hne : a ≠ x := by omega
          have hnn : ¬ nn = a := by omega
          simp [hne, hnn]
  · rw [List.pairwise_append, List.pairwise_cons]
    exact ⟨hpw1, ⟨hxpost, hpw3⟩, fun a ha b hb => hcross a ha b (by
      simp only [List.mem_cons] at hb ⊢
      rcases hb with hb | hb
      · exact Or.inl hb
      · exact Or.inr (Or.inr hb))⟩

theorem absorb_size_exact (mem : Pool) (cap : Nat) (pre post : List Nat) (x y : Nat)
    (ht : Tiled mem (pre ++ x :: y :: post) cap) (hcap : cap < SIZE_MOD) :
    (absorb mem x y x).size = (mem x).size + (mem y).size + headerSize := by
  rw [Tiled_append] at ht
  obtain ⟨-, hx, hy, ht3⟩ := ht
  have hle := Tiled_start_le mem post cap ht3
  rw [absorb_size]
  simp only [if_true]
  simp only [startOr] at hx
  simp only [headerSize, SIZE_MOD] at hx hy hcap ⊢
  omega

theorem absorb_tiled (mem : Pool) (cap : Nat) (pre post : List Nat) (x y : Nat)
    (hl : LinksOK mem (pre ++ x :: y :: post))
    (ht : Tiled mem (pre ++ x :: y :: post) cap) (hcap : cap < SIZE_MOD) :
    Tiled (absorb mem x y) (pre ++ x :: post) cap := by
  have hsz := absorb_size_exact mem cap pre post x y ht hcap
  obtain ⟨-, -, hpw⟩ := hl
  rw [List.pairwise_append, List.pairwise_cons] at hpw
  obtain ⟨-, ⟨hxall, -⟩, hcross⟩ := hpw
  rw [Tiled_append] at ht ⊢
  obtain ⟨ht1, hx, hy, ht3⟩ := ht
  simp only [startOr] at hx
  refine ⟨?_, ?_, ?_⟩
  · refine Tiled_frame mem _ pre _ ?_ ht1
    intro a ha
    have := hcross a ha x (by simp)
    have hne : a ≠ x := by omega
    rw [absorb_size]
    simp [hne]
  · rw [hsz, ← hy, ← hx]
    omega
  · refine Tiled_frame mem _ post _ ?_ ht3
    intro a ha
    have := hxall a (by simp [ha])
    have hne : a ≠ x := by omega
    rw [absorb_size]
    simp [hne]

theorem absorb_ledger (mem : Pool) (cap : Nat) (pre post : List Nat) (x y : Nat)
    (h : LedgerOK mem cap (pre ++ x :: y :: post)) (hcap : cap < SIZE_MOD) :
    LedgerOK (absorb mem x y) cap (pre ++ x :: post) :=
  ⟨absorb_links mem pre post x y h.1, absorb_tiled mem cap pre post x y h.1 h.2 hcap⟩

/-- Reading the links of a block inside a link consistent ledger. -/
theorem LinksOK_at (mem : Pool) (pre post : List Nat) (b : Nat)
    (h : LinksOK mem (pre ++ b :: post)) :
    (mem b).prev = lastOr pre none ∧ (mem b).next = headOr post none := by
  obtain ⟨-, hseg, -⟩ := h
  rw [Seg_append] at hseg
  exact ⟨hseg.2.1, hseg.2.2.1⟩

/-- C7. Three-way coalescing: in a ledger that is link consistent and tiles an
arena whose capacity is a `size_t`, when the block `b` lies between two free
blocks `p` and `n`, `coalesce` on `b` leaves at the position of `p` one block
of size `p.size + b.size + n.size + 2 * headerSize` whose `next` is the former
`next` of `n`; that block, when present, has `p` as `prev`; the result is again
a consistent ledger, and following `next` from the arena start reaches two
blocks fewer than before. -/
theorem coalesce_three_way (mem : Pool) (cap : Nat) (pre post : List Nat) (p b n : Nat)
    (hled : LedgerOK mem cap (pre ++ p :: b :: n :: post)) (hcap : cap < SIZE_MOD)
    (hp : (mem p).free = true) (hn : (mem n).free = true) :
    (coalesce mem b p).size = (mem p).size + (mem b).size + (mem n).size + 2 * headerSize ∧
    (coalesce mem b p).next = (mem n).next ∧
    (∀ nn, (mem n).next = some nn → (coalesce mem b nn).prev = some p) ∧
    LedgerOK (coalesce mem b) cap (pre ++ p :: post) ∧
    walk mem (pre ++ p :: b :: n :: post).length (some 0) = pre ++ p :: b :: n :: post ∧
    walk (coalesce mem b) (pre ++ p :: b :: n :: post).length (some 0) = pre ++ p :: post ∧
    (pre ++ p :: post).length + 2 = (pre ++ p :: b :: n :: post).length := by
  have hled1 : LedgerOK mem cap ((pre ++ [p]) ++ b :: n :: post) := by
    simpa using hled
  have hat := LinksOK_at mem (pre ++ [p]) (n :: post) b hled1.1
  rw [lastOr_concat] at hat
  obtain ⟨-, hbnext⟩ := hat
  simp only [headOr] at hbnext
  have hpb : p ≠ b := by
    have hpw := hled.1.2.2
    rw [List.pairwise_append, List.pairwise_cons] at hpw
    have := hpw.2.1.1 b (by simp)
    omega
  have hfirst : coalesceNext mem b = absorb mem b n := by
    rw [coalesceNext_eq]
    simp [hbnext, hn]
  have hm1 : LedgerOK (absorb mem b n) cap (pre ++ p :: b :: post) := by
    have := absorb_ledger mem cap (pre ++ [p]) post b n hled1 hcap
    simpa using this
  have hat1 := LinksOK_at (absorb mem b n) (pre ++ [p]) post b (by simpa using hm1.1)
  rw [lastOr_concat] at hat1
  have hfree1 : (absorb mem b n p).free = true := by
    rw [absorb_free]
    exact hp
  have hsecond : coalescePrev (absorb mem b n) b = absorb (absorb mem b n) p b := by
    rw [coalescePrev_eq]
    simp [hat1.1, hfree1]
  have hco : coalesce mem b = absorb (absorb mem b n) p b := by
    unfold coalesce
    rw [hfirst, hsecond]
  have hm2 := absorb_ledger (absorb mem b n) cap pre post p b hm1 hcap
  have hs2 := absorb_size_exact (absorb mem b n) cap pre post p b hm1.2 hcap
  have hs1 := absorb_size_exact mem cap (pre ++ [p]) post b n hled1.2 hcap
  have hsp : (absorb mem b n p).size = (mem p).size := by
    rw [absorb_size]
    simp [hpb]
  have hnext1 : (absorb mem b n b).next = (mem n).next := by
    rw [absorb_next]
    simp
  have hheadOr : ∀ l : List Nat, headOr l none = l.head? := fun l => by cases l <;> rfl
  rw [hco]
  refine ⟨?_, ?_, ?_, hm2, ?_, ?_, ?_⟩
  · rw [hs2, hs1, hsp]
    omega
  · rw [absorb_next]
    simp [hnext1]
  · intro nn hnn
    rw [absorb_prev, hnext1]
    simp [hnn]
  · have := walk_of_Seg mem _ none _ hled.1.2.1 (le_refl _)
    rw [hheadOr, hled.1.1] at this
    exact this
  · have := walk_of_Seg (absorb (absorb mem b n) p b) (pre ++ p :: post) none
      (pre ++ p :: b :: n :: post).length hm2.1.2.1 (by simp)
    rw [hheadOr, hm2.1.1] at this
    exact this
  · simp only [List.length_append, List.length_cons]
    omega

/-- C7 at a concrete ledger: the blocks at 0, 132 and 214 of `poolSandwich`
(100, 50 and 200 bytes) become one block of 414 bytes at 0. -/
theorem coalesce_three_way_witness :
    (coalesce poolSandwich 132 0).size = 414 ∧
    ((coalesce poolSandwich 132 0).size
        = (poolSandwich 0).size + (poolSandwich 132).size + (poolSandwich 214).size
          + 2 * headerSize ∧
      (coalesce poolSandwich 132 0).next = (poolSandwich 214).next ∧
      (∀ nn, (poolSandwich 214).next = some nn → (coalesce poolSandwich 132 nn).prev = some 0) ∧
      LedgerOK (coalesce poolSandwich 132) 446 ([] ++ 0 :: []) ∧
      walk poolSandwich ([] ++ 0 :: 132 :: 214 :: []).length (some 0)
        = [] ++ 0 :: 132 :: 214 :: [] ∧
      walk (coalesce poolSandwich 132) ([] ++ 0 :: 132 :: 214 :: []).length (some 0)
        = [] ++ 0 :: [] ∧
      ([] ++ 0 :: ([] : List Nat)).length + 2 = ([] ++ 0 :: 132 :: 214 :: ([] : List Nat)).length) :=
  ⟨by decide, coalesce_three_way poolSandwich 446 [] [] 0 132 214 (by decide) (by decide)
    (by decide) (by decide)⟩

/-! ### The split step -/

theorem splitBlock_next (mem : Pool) (block size z : Nat) :
    (splitBlock mem block size z).next =
      if z = block then some (block + headerSize + size)
      else if z = block + headerSize + size then (mem block).next
      else (mem z).next := by
  have hne : block ≠ block + headerSize + size := by
    simp only [headerSize]
    omega
  unfold splitBlock
  cases h : (mem block).next <;>
    simp [setSize_next, setFree_next, setNext_next, setPrev_next, hne, h]

theorem splitBlock_prev (mem : Pool) (block size z : Nat) :
    (splitBlock mem block size z).prev =
      if (mem block).next = some z then some (block + headerSize + size)
      else if z = block + headerSize + size then some block
      else (mem z).prev := by
  have hne : block ≠ block + headerSize + size := by
    simp only [headerSize]
    omega
  unfold splitBlock
  cases h : (mem block).next with
  | none => simp [setSize_prev, setFree_prev, setNext_prev, setPrev_prev, setSize_next,
      setFree_next, setNext_next, setPrev_next, hne, h]
  | some n =>
    by_cases hz : z = n
    · simp [setSize_prev, setFree_prev, setNext_prev, setPrev_prev, setSize_next,
        setFree_next, setNext_next, setPrev_next, hne, h, hz]
    · have hz2 : ¬ n = z := fun e => hz e.symm
      simp [setSize_prev, setFree_prev, setNext_prev, setPrev_prev, setSize_next,
        setFree_next, setNext_next, setPrev_next, hne, h, hz, hz2]

theorem splitBlock_links (mem : Pool) (cap : Nat) (pre post : List Nat) (block size : Nat)
    (h : LedgerOK mem cap (pre ++ block :: post))
    (hsplit : size + headerSize < (mem block).size) :
    LinksOK (splitBlock mem block size) (pre ++ block :: (block + headerSize + size) :: post) := by
  obtain ⟨⟨hhead, hseg, hpw⟩, ht⟩ := h
  rw [Seg_append] at hseg
  obtain ⟨hs1, hpb, hnb, hs3⟩ := hseg
  rw [Tiled_append] at ht
  obtain ⟨-, hend, ht3⟩ := ht
  rw [List.pairwise_append, List.pairwise_cons] at hpw
  obtain ⟨hpw1, ⟨hball, hpw3⟩, hcross⟩ := hpw
  have hpreb : ∀ a ∈ pre, a < block := fun a ha => hcross a ha block (by simp)
  have hnext_mem : ∀ a, (mem block).next = some a → a ∈ post := fun a ha =>
    headOr_mem post a (hnb ▸ ha)
  have hH : headerSize = 32 := rfl
  have hnew_post : ∀ a ∈ post, block + headerSize + size < a := by
    intro a ha
    cases post with
    | nil => simp at ha
    | cons n post2 =>
      simp only [startOr] at hend
      rw [List.pairwise_cons] at hpw3
      simp only [List.mem_cons] at ha
      rcases ha with ha | ha
      · omega
      · have := hpw3.1 a ha
        omega
  refine ⟨?_, ?_, ?_⟩
  · cases pre <;> simpa using hhead
  · rw [Seg_append]
    refine ⟨?_, ?_, ?_, ?_, ?_, ?_⟩
    · refine Seg_frame mem _ pre none _ ?_ hs1
      intro a ha
      have h1 := hpreb a ha
      rw [splitBlock_prev, splitBlock_next]
      have hne : a ≠ block := by omega
      have hne2 : a ≠ block + headerSize + size := by omega
      have hnn : ¬ (mem block).next = some a := fun e => by
        have := hball a (hnext_mem a e)
        omega
      simp [hne, hne2, hnn]
    · rw [splitBlock_prev]
      have hnn : ¬ (mem block).next = some block := fun e => by
        have := hball block (hnext_mem block e)
        omega
      have hne : block ≠ block + headerSize + size := by omega
      simp only [hnn, hne, if_false]
      exact hpb
    · rw [splitBlock_next]
      simp [headOr]
    · rw [splitBlock_prev]
      have hnn : ¬ (mem block).next = some (block + headerSize + size) := fun e => by
        have := hnew_post _ (hnext_mem _ e)
        omega
      simp [hnn]
    · rw [splitBlock_next]
      have hne : block + headerSize + size ≠ block := by omega
      simp only [hne, if_false, if_true]
      exact hnb
    · cases post with
      | nil => trivial
      | cons n post2 =>
        obtain ⟨-, hnn, hs4⟩ := hs3
        simp only [headOr] at hnb
        rw [List.pairwise_cons] at hpw3
        have hbn : block < n := hball n (by simp)
        have hnewn : block + headerSize + size < n := hnew_post n (by simp)
        refine ⟨?_, ?_, ?_⟩
        · rw [splitBlock_prev]
          simp [hnb]
        · rw [splitBlock_next]
          have hne : n ≠ block := by omega
          have hne2 : n ≠ block + headerSize + size := by omega
          simp only [hne, hne2, if_false]
          exact hnn
        · refine Seg_frame mem _ post2 _ _ ?_ hs4
          intro a ha
          have h1 := hpw3.1 a ha
          rw [splitBlock_prev, splitBlock_next, hnb]
          have hne : a ≠ block := by omega
          have hne2 : a ≠ block + headerSize + size := by omega
          have hnn : ¬ n = a := by omega
          simp [hne, hne2, hnn]
  · rw [List.pairwise_append, List.pairwise_cons, List.pairwise_cons]
    refine ⟨hpw1, ⟨?_, hnew_post, hpw3⟩, ?_⟩
    · intro a ha
      simp only [List.mem_cons] at ha
      rcases ha with ha | ha
      · omega
      · exact hball a ha
    · intro a ha c hc
      simp only [List.mem_cons] at hc
      have := hpreb a ha
      rcases hc with hc | hc | hc
      · omega
      · omega
      · exact hcross a ha c (by simp [hc])

theorem splitBlock_size (mem : Pool) (block size z : Nat) :
    (splitBlock mem block size z).size =
      if z = block then size % SIZE_MOD
      else if z = block + headerSize + size then
        (((mem block).size + SIZE_MOD - size % SIZE_MOD) % SIZE_MOD + SIZE_MOD - headerSize)
          % SIZE_MOD
      else (mem z).size := by
  unfold splitBlock
  cases h : (mem block).next <;>
    simp [setSize_size, setFree_size, setNext_size, setPrev_size, setSize_next, setFree_next,
      setNext_next, setPrev_next, h]

theorem splitBlock_free (mem : Pool) (block size z : Nat) :
    (splitBlock mem block size z).free =
      if z = block + headerSize + size then true else (mem z).free := by
  unfold splitBlock
  cases h : (mem block).next <;>
    simp [setSize_free, setFree_free, setNext_free, setPrev_free, setSize_next, setFree_next,
      setNext_next, setPrev_next, h]

theorem splitBlock_tiled (mem : Pool) (cap : Nat) (pre post : List Nat) (block size : Nat)
    (h : LedgerOK mem cap (pre ++ block :: post)) (hcap : cap < SIZE_MOD)
    (hsplit : size + headerSize < (mem block).size) :
    Tiled (splitBlock mem block size) (pre ++ block :: (block + headerSize + size) :: post) cap := by
  obtain ⟨⟨-, -, hpw⟩, ht⟩ := h
  rw [Tiled_append] at ht ⊢
  obtain ⟨ht1, hend, ht3⟩ := ht
  have hle := Tiled_start_le mem post cap ht3
  rw [List.pairwise_append, List.pairwise_cons] at hpw
  obtain ⟨-, ⟨hball, hpw3⟩, hcross⟩ := hpw
  have hH : headerSize = 32 := rfl
  have hM : SIZE_MOD = 18446744073709551616 := rfl
  have hnew_post : ∀ a ∈ post, block + headerSize + size < a := by
    intro a ha
    cases post with
    | nil => simp at ha
    | cons n post2 =>
      simp only [startOr] at hend
      rw [List.pairwise_cons] at hpw3
      simp only [List.mem_cons] at ha
      rcases ha with ha | ha
      · omega
      · have := hpw3.1 a ha
        omega
  refine ⟨?_, ?_, ?_, ?_⟩
  · refine Tiled_frame mem _ pre _ ?_ ht1
    intro a ha
    have := hcross a ha block (by simp)
    have hne : a ≠ block := by omega
    have hne2 : a ≠ block + headerSize + size := by omega
    rw [splitBlock_size]
    simp [hne, hne2]
  · rw [splitBlock_size]
    simp only [if_true, startOr]
    have : size % SIZE_MOD = size := Nat.mod_eq_of_lt (by omega)
    omega
  · rw [splitBlock_size]
    have hne : block + headerSize + size ≠ block := by omega
    simp only [hne, if_false, if_true]
    have : size % SIZE_MOD = size := Nat.mod_eq_of_lt (by omega)
    rw [this, ← hend, hM]
    omega
  · refine Tiled_frame mem _ post _ ?_ ht3
    intro a ha
    have h1 := hball a ha
    have h2 := hnew_post a ha
    have hne : a ≠ block := by omega
    have hne2 : a ≠ block + headerSize + size := by omega
    rw [splitBlock_size]
    simp [hne, hne2]

theorem coalesceNext_links (mem : Pool) (pre post : List Nat) (block : Nat)
    (h : LinksOK mem (pre ++ block :: post)) :
    LinksOK (coalesceNext mem block)
        (pre ++ block :: (if mergesNext mem block = true then post.tail else post)) ∧
      ∀ z, (coalesceNext mem block z).free = (mem z).free := by
  have hat := LinksOK_at mem pre post block h
  rw [coalesceNext_eq]
  cases post with
  | nil =>
    have hnx : (mem block).next = none := hat.2
    simp [hnx, mergesNext, h]
  | cons n post2 =>
    have hnx : (mem block).next = some n := hat.2
    by_cases hf : (mem n).free = true
    · simp only [hnx, hf, if_true, mergesNext, List.tail_cons]
      exact ⟨absorb_links mem pre post2 block n h, fun z => absorb_free mem block n z⟩
    · simp [hnx, hf, mergesNext, h]

theorem insertBlock_perm (mem : Pool) (t : TreeNode) (b : Nat) :
    (insertBlock mem t b).blocks.Perm (b :: t.blocks) := by
  induction t with
  | nil => simp [insertBlock, TreeNode.blocks]
  | node nb left right ihl ihr =>
    unfold insertBlock
    by_cases h : (mem b).size < (mem nb).size
    · simp only [h, if_true, TreeNode.blocks]
      exact (ihl.append_right _).trans (by simp)
    · simp only [h, if_false, TreeNode.blocks]
      have h1 : (left.blocks ++ nb :: (insertBlock mem right b).blocks).Perm
          (left.blocks ++ nb :: b :: right.blocks) :=
        List.Perm.append_left _ (List.Perm.cons _ ihr)
      have h2 : (left.blocks ++ nb :: b :: right.blocks).Perm
          (b :: (left.blocks ++ nb :: right.blocks)) := by
        have := @List.perm_middle _ b (left.blocks ++ [nb]) right.blocks
        simpa using this
      exact h1.trans h2

theorem insertBlock_mem (mem : Pool) (t : TreeNode) (b a : Nat) :
    a ∈ (insertBlock mem t b).blocks ↔ a = b ∨ a ∈ t.blocks := by
  rw [(insertBlock_perm mem t b).mem_iff]
  simp

theorem insertBlock_ordered (mem : Pool) (t : TreeNode) (b : Nat) (h : Ordered mem t) :
    Ordered mem (insertBlock mem t b) := by
  induction t with
  | nil => simp [insertBlock, Ordered, TreeNode.blocks]
  | node nb left right ihl ihr =>
    obtain ⟨hl, hr, hol, hor⟩ := h
    unfold insertBlock
    by_cases hlt : (mem b).size < (mem nb).size
    · simp only [hlt, if_true]
      refine ⟨?_, hr, ihl hol, hor⟩
      intro a ha
      rw [insertBlock_mem] at ha
      rcases ha with rfl | ha
      · exact hlt
      · exact hl a ha
    · simp only [hlt, if_false]
      refine ⟨hl, ?_, hol, ihr hor⟩
      intro a ha
      rw [insertBlock_mem] at ha
      rcases ha with rfl | ha
      · omega
      · exact hr a ha

theorem foldl_insertBlock_ordered (mem : Pool) (bs : List Nat) (t : TreeNode)
    (h : Ordered mem t) : Ordered mem (bs.foldl (insertBlock mem) t) := by
  induction bs generalizing t with
  | nil => exact h
  | cons b rest ih => exact ih _ (insertBlock_ordered mem t b h)

theorem foldl_insertBlock_perm (mem : Pool) (bs : List Nat) (t : TreeNode) :
    (bs.foldl (insertBlock mem) t).blocks.Perm (bs ++ t.blocks) := by
  induction bs generalizing t with
  | nil => simp
  | cons b rest ih =>
    refine (ih (insertBlock mem t b)).trans ?_
    refine (List.Perm.append_left rest (insertBlock_perm mem t b)).trans ?_
    simp

theorem buildTree_ordered (mem : Pool) (bs : List Nat) : Ordered mem (buildTree mem bs) :=
  foldl_insertBlock_ordered mem bs .nil trivial

theorem buildTree_perm (mem : Pool) (bs : List Nat) : (buildTree mem bs).blocks.Perm bs := by
  have := foldl_insertBlock_perm mem bs .nil
  simpa [buildTree, TreeNode.blocks] using this

theorem findMin_head (b : Nat) (l r : TreeNode) :
    ∃ tb tl tr tail, findMin (.node b l r) = .node tb tl tr ∧
      (TreeNode.node b l r).blocks = tb :: tail := by
  induction l generalizing b r with
  | nil => exact ⟨b, .nil, r, r.blocks, rfl, by simp [TreeNode.blocks]⟩
  | node lb ll lr ihl _ =>
    obtain ⟨tb, tl, tr, tail, h1, h2⟩ := ihl lb lr
    refine ⟨tb, tl, tr, tail ++ b :: r.blocks, ?_, ?_⟩
    · simpa [findMin] using h1
    · simp only [TreeNode.blocks] at h2 ⊢
      rw [h2]
      simp

/-- In an ordered index `removeBlock` deletes the first block, in in-order,
whose size is the size of the block it is given, and nothing else. -/
theorem removeBlock_blocks (mem : Pool) (t : TreeNode) (b : Nat) (h : Ordered mem t) :
    (removeBlock mem t b).blocks = t.blocks.eraseP (sameSize mem b) := by
  induction t generalizing b with
  | nil => simp [removeBlock, TreeNode.blocks]
  | node rb left right ihl ihr =>
    obtain ⟨hl, hr, hol, hor⟩ := h
    unfold removeBlock
    by_cases h1 : (mem b).size < (mem rb).size
    · simp only [h1, if_true, TreeNode.blocks]
      rw [ihl b hol]
      have hno : ∀ a ∈ rb :: right.blocks, ¬ sameSize mem b a = true := by
        intro a ha
        simp only [List.mem_cons] at ha
        simp only [sameSize, decide_eq_true_eq]
        rcases ha with rfl | ha
        · omega
        · have := hr a ha
          omega
      by_cases hex : ∃ a ∈ left.blocks, sameSize mem b a = true
      · obtain ⟨a, ha, hpa⟩ := hex
        rw [List.eraseP_append_left hpa _ ha]
      · have hnl : ∀ a ∈ left.blocks, ¬ sameSize mem b a = true := fun a ha hpa =>
          hex ⟨a, ha, hpa⟩
        rw [List.eraseP_of_forall_not hnl, List.eraseP_append_right _ hnl,
          List.eraseP_of_forall_not hno]
    · by_cases h2 : (mem rb).size < (mem b).size
      · simp only [h1, h2, if_true, if_false, TreeNode.blocks]
        rw [ihr b hor]
        have hnl : ∀ a ∈ left.blocks, ¬ sameSize mem b a = true := by
          intro a ha
          simp only [sameSize, decide_eq_true_eq]
          have := hl a ha
          omega
        have hnb : ¬ sameSize mem b rb = true := by
          simp only [sameSize, decide_eq_true_eq]
          omega
        rw [List.eraseP_append_right _ hnl, List.eraseP_cons_of_neg hnb]
      · simp only [h1, h2, if_false]
        have hnl : ∀ a ∈ left.blocks, ¬ sameSize mem b a = true := by
          intro a ha
          simp only [sameSize, decide_eq_true_eq]
          have := hl a ha
          omega
        have hpb : sameSize mem b rb = true := by
          simp only [sameSize, decide_eq_true_eq]
          omega
        have hgoal : (TreeNode.node rb left right).blocks.eraseP (sameSize mem b)
            = left.blocks ++ right.blocks := by
          simp only [TreeNode.blocks]
          rw [List.eraseP_append_right _ hnl, List.eraseP_cons_of_pos hpb]
        rw [hgoal]
        cases left with
        | nil => simp [TreeNode.blocks]
        | node lb ll lr =>
          cases right with
          | nil => simp [TreeNode.blocks]
          | node qb ql qr =>
            obtain ⟨tb, tl, tr, tail, hmin, hblocks⟩ := findMin_head qb ql qr
            simp only [hmin]
            have hself : sameSize mem tb tb = true := by simp [sameSize]
            have hnode : ∀ (x : Nat) (l r : TreeNode),
                (TreeNode.node x l r).blocks = l.blocks ++ x :: r.blocks := fun _ _ _ => rfl
            rw [hnode tb, ihr tb hor, hblocks, List.eraseP_cons_of_pos hself]

theorem eraseP_eq_erase_of_unique (p : Nat → Bool) (b : Nat) (l : List Nat)
    (h : ∀ a ∈ l, p a = true ↔ a = b) : l.eraseP p = l.erase b := by
  induction l with
  | nil => rfl
  | cons x rest ih =>
    have hx := h x (by simp)
    by_cases hxb : x = b
    · subst hxb
      rw [List.eraseP_cons_of_pos (hx.2 rfl)]
      simp
    · have hpx : ¬ p x = true := fun e => hxb (hx.1 e)
      rw [List.eraseP_cons_of_neg hpx, ih (fun a ha => h a (by simp [ha]))]
      rw [List.erase_cons_tail (by simpa using hxb)]

/-- C10 as stated fails: the index built by `insertBlock` from the two
distinct free blocks at 0 and 314, both of 100 bytes, contains the block at
314; `removeBlock` called for it returns a tree that still contains the block
at 314 and no longer contains the block at 0. -/
theorem removeBlock_removes_other_block :
    treeTwins = buildTree poolTwins [0, 314] ∧
    (poolTwins 0).free = true ∧ (poolTwins 314).free = true ∧
    314 ∈ treeTwins.blocks ∧
    ¬ (314 ∉ (removeBlock poolTwins treeTwins 314).blocks ∧
      ∀ a ∈ treeTwins.blocks, a ≠ 314 →
        (removeBlock poolTwins treeTwins 314).blocks.count a = 1) := by
  decide

/-- C10 (amended). In an index built by `insertBlock` from distinct blocks,
`removeBlock` called for a block `b` of the index deletes the first block, in
in-order, that has the size of `b`, and nothing else; when no other block of
the index has the size of `b`, the result does not contain `b` and contains
every other block of the original index exactly once. -/
theorem removeBlock_unique_size (mem : Pool) (bs : List Nat) (b : Nat)
    (hnd : bs.Nodup) :
    (removeBlock mem (buildTree mem bs) b).blocks
      = (buildTree mem bs).blocks.eraseP (sameSize mem b) ∧
    ((∀ a ∈ bs, (mem a).size = (mem b).size → a = b) →
      b ∉ (removeBlock mem (buildTree mem bs) b).blocks ∧
      (∀ a ∈ bs, a ≠ b → (removeBlock mem (buildTree mem bs) b).blocks.count a = 1) ∧
      ∀ a ∈ (removeBlock mem (buildTree mem bs) b).blocks, a ∈ bs) := by
  have hperm := buildTree_perm mem bs
  have hnd2 : (buildTree mem bs).blocks.Nodup := hperm.nodup_iff.2 hnd
  have hrem := removeBlock_blocks mem (buildTree mem bs) b (buildTree_ordered mem bs)
  refine ⟨hrem, fun huniq => ?_⟩
  have hers : (buildTree mem bs).blocks.eraseP (sameSize mem b)
      = (buildTree mem bs).blocks.erase b := by
    apply eraseP_eq_erase_of_unique
    intro a ha
    simp only [sameSize, decide_eq_true_eq]
    constructor
    · exact huniq a (hperm.mem_iff.1 ha)
    · intro e
      rw [e]
  rw [hrem, hers]
  refine ⟨?_, ?_, ?_⟩
  · intro hmem
    have := (List.Nodup.mem_erase_iff hnd2).1 hmem
    exact this.1 rfl
  · intro a ha hne
    rw [List.count_erase_of_ne hne]
    exact List.count_eq_one_of_mem hnd2 (hperm.mem_iff.2 ha)
  · intro a ha
    exact hperm.mem_iff.1 ((List.Nodup.mem_erase_iff hnd2).1 ha).2

/-- C10 (amended) at a concrete index: the three blocks of `poolBestFit`, of
sizes 500, 150 and 100; the block at 580 is removed. -/
theorem removeBlock_unique_size_witness :
    [0, 580, 810].Nodup ∧ buildTree poolBestFit [0, 580, 810] = treeBestFit ∧
    (removeBlock poolBestFit treeBestFit 580).blocks = [810, 0] ∧
    (removeBlock poolBestFit (buildTree poolBestFit [0, 580, 810]) 580).blocks
      = (buildTree poolBestFit [0, 580, 810]).blocks.eraseP (sameSize poolBestFit 580) ∧
    580 ∉ (removeBlock poolBestFit (buildTree poolBestFit [0, 580, 810]) 580).blocks ∧
    (∀ a ∈ [0, 580, 810], a ≠ 580 →
      (removeBlock poolBestFit (buildTree poolBestFit [0, 580, 810]) 580).blocks.count a = 1) ∧
    ∀ a ∈ (removeBlock poolBestFit (buildTree poolBestFit [0, 580, 810]) 580).blocks,
      a ∈ [0, 580, 810] :=
  ⟨by decide, by decide, by decide,
    (removeBlock_unique_size poolBestFit [0, 580, 810] 580 (by decide)).1,
    (removeBlock_unique_size poolBestFit [0, 580, 810] 580 (by decide)).2 (by decide)⟩

/-! ### The root of the index after the first allocation -/

theorem construct_root (cap : Nat) (arena : Pool) :
    (MemoryManager.construct cap arena).treeRoot = .live (.node 0 .nil .nil) := rfl

theorem construct_block (cap : Nat) (arena : Pool) (hcap : headerSize ≤ cap)
    (hlt : cap < SIZE_MOD) :
    ((MemoryManager.construct cap arena).pool 0).size = cap - headerSize ∧
    ((MemoryManager.construct cap arena).pool 0).free = true := by
  simp only [MemoryManager.construct, setPrev_size, setNext_size, setFree_size, setSize_size,
    setPrev_free, setNext_free, setFree_free, if_true, and_true]
  simp only [headerSize, SIZE_MOD] at hcap hlt ⊢
  omega

/-- An allocation served from an index that consists of one live node deletes
that node while `treeRoot` keeps pointing to it: with a split the call itself
reads the deleted node, without a split it returns and leaves the dangling
root behind. -/
theorem mymalloc_single_node (m : MemoryManager) (size block : Nat)
    (hroot : m.treeRoot = .live (.node block .nil .nil))
    (hfree : (m.pool block).free = true) (hfit : size ≤ (m.pool block).size)
    (hB : (m.pool block).size + headerSize < SIZE_MOD) :
    (size + headerSize < (m.pool block).size → mymalloc .undefined m size = none) ∧
    ((m.pool block).size ≤ size + headerSize →
      ∃ m2, mymalloc .undefined m size = some (m2, some (block + headerSize)) ∧
        m2.treeRoot = .dangling (.node block .nil .nil)) := by
  have hfind : findBestFit m.pool (.node block .nil .nil) size = .node block .nil .nil := by
    simp [findBestFit, hfree, hfit]
  have hrem : callRemoveBlock m.pool (.live (.node block .nil .nil)) (.node block .nil .nil)
      block = .dangling (.node block .nil .nil) := by
    simp [callRemoveBlock, deletesRoot]
  have hmod : (size + headerSize) % SIZE_MOD = size + headerSize := by
    apply Nat.mod_eq_of_lt
    omega
  constructor
  · intro h
    simp [mymalloc, hroot, NodePtr.read, hfind, hrem, hmod, h, callInsertBlock]
  · intro h
    have h2 : ¬ size + headerSize < (m.pool block).size := by omega
    simp [mymalloc, hroot, NodePtr.read, hfind, hrem, hmod, h2]

/-- On a fresh allocator every first allocation that is served either reads
the deleted root node (with a split) or leaves `treeRoot` dangling. -/
theorem mymalloc_fresh (cap size : Nat) (arena : Pool) (hcap : headerSize ≤ cap)
    (hlt : cap < SIZE_MOD) (hfit : size ≤ cap - headerSize) :
    (size + 2 * headerSize < cap →
      mymalloc .undefined (MemoryManager.construct cap arena) size = none) ∧
    (cap ≤ size + 2 * headerSize →
      ∃ m, mymalloc .undefined (MemoryManager.construct cap arena) size
          = some (m, some headerSize) ∧
        m.treeRoot = .dangling (.node 0 .nil .nil)) := by
  obtain ⟨hsz, hfr⟩ := construct_block cap arena hcap hlt
  have hH : headerSize = 32 := rfl
  have key := mymalloc_single_node (MemoryManager.construct cap arena) size 0
    (construct_root cap arena) hfr (by rw [hsz]; exact hfit) (by rw [hsz]; omega)
  rw [hsz] at key
  constructor
  · intro h
    exact key.1 (by omega)
  · intro h
    obtain ⟨m2, h1, h2⟩ := key.2 (by omega)
    exact ⟨m2, by simpa using h1, h2⟩

/-- Once `treeRoot` dangles, every allocation and every release of a non-null
pointer reads the deleted node. -/
theorem dangling_undefined (m : MemoryManager) (t : TreeNode) (h : m.treeRoot = .dangling t) :
    (∀ size, mymalloc .undefined m size = none) ∧
    (∀ ptr, myfree .undefined m (some ptr) = none) := by
  constructor
  · intro size
    simp [mymalloc, h, NodePtr.read]
  · intro ptr
    simp [myfree, h, callInsertBlock, NodePtr.read]

/-- On the lenient reading the calls of `main` end with the whole arena in one
free block, while the index read through the dangling root holds the block at
0 twice and the absorbed blocks at 232, 564 and 696. -/
theorem main_intact_outcome :
    (main .intact).map
        (fun m => (m.treeRoot, walk m.pool 8 (some 0), (m.pool 0).size, (m.pool 0).free))
      = some (.dangling (.node 0 (.node 564 .nil .nil)
          (.node 696 (.node 232 .nil (.node 0 .nil .nil)) .nil)), [0], 2016, true) := by
  decide

/-! ### Results of a served allocation -/

/-- What a `mymalloc` call that returns a pointer leaves in the arena, and the
pointer it returns. -/
theorem mymalloc_result (freed : FreedRead) (m m' : MemoryManager) (t : TreeNode)
    (size : Nat) (block h : Nat) (l r : TreeNode)
    (hroot : m.treeRoot.read freed = some t)
    (hfind : findBestFit m.pool t size = .node block l r)
    (hok : mymalloc freed m size = some (m', some h))
    (hfit : (m.pool block).size + headerSize < SIZE_MOD) :
    h = block + headerSize ∧ size ≤ (m.pool block).size ∧ (m.pool block).free = true ∧
    (size + headerSize < (m.pool block).size →
      m'.pool = setFree (splitBlock m.pool block size) block false) ∧
    ((m.pool block).size ≤ size + headerSize → m'.pool = setFree m.pool block false) := by
  have hsnd := findBestFit_sound m.pool t size block l r hfind
  have hsz : size ≤ (m.pool block).size := hsnd.2.2.2
  have hmod : (size + headerSize) % SIZE_MOD = size + headerSize := by
    apply Nat.mod_eq_of_lt
    omega
  simp only [mymalloc, hroot, hfind, hmod] at hok
  by_cases hlt : size + headerSize < (m.pool block).size
  · simp only [hlt, if_true] at hok
    cases hins : callInsertBlock freed (splitBlock m.pool block size)
        (callRemoveBlock m.pool m.treeRoot t block) (block + headerSize + size) with
    | none => simp [hins] at hok
    | some root2 =>
      simp only [hins, Option.some.injEq, Prod.mk.injEq] at hok
      obtain ⟨rfl, hh⟩ := hok
      refine ⟨hh.symm, hsz, hsnd.2.2.1, fun _ => rfl, fun hle => ?_⟩
      omega
  · simp only [hlt, if_false, Option.some.injEq, Prod.mk.injEq] at hok
    obtain ⟨rfl, hh⟩ := hok
    exact ⟨hh.symm, hsz, hsnd.2.2.1, fun h2 => absurd h2 hlt, fun _ => rfl⟩

/-- C14. Bounded internal fragmentation: after a `mymalloc` that returns a
pointer, the chosen block (which ends inside the range of `size_t`) is marked
used, its size `g` satisfies `size <= g <= size + headerSize`, `g = size` when
the block was split, and the pointer returned is the offset of the block plus
`headerSize`. -/
theorem mymalloc_fragmentation (freed : FreedRead) (m m' : MemoryManager) (t : TreeNode)
    (size : Nat) (block h : Nat) (l r : TreeNode)
    (hroot : m.treeRoot.read freed = some t)
    (hfind : findBestFit m.pool t size = .node block l r)
    (hok : mymalloc freed m size = some (m', some h))
    (hfit : (m.pool block).size + headerSize < SIZE_MOD) :
    h = block + headerSize ∧
    (m'.pool block).free = false ∧
    size ≤ (m'.pool block).size ∧ (m'.pool block).size ≤ size + headerSize ∧
    (size + headerSize < (m.pool block).size → (m'.pool block).size = size) := by
  obtain ⟨hh, hsz, -, hsplit, hwhole⟩ :=
    mymalloc_result freed m m' t size block h l r hroot hfind hok hfit
  have hsm : size % SIZE_MOD = size := by
    apply Nat.mod_eq_of_lt
    omega
  by_cases hlt : size + headerSize < (m.pool block).size
  · rw [hsplit hlt]
    simp [setFree_free, setFree_size, splitBlock_size, hsm, hh]
  · have hle : (m.pool block).size ≤ size + headerSize := by omega
    rw [hwhole hle]
    simp only [setFree_free, setFree_size, if_true]
    exact ⟨hh, trivial, hsz, hle, fun h2 => absurd h2 hlt⟩

/-- C14 at concrete states: the request for 50 bytes on `stateBestFit` is
served with a split from the block at 810, and a request for 90 bytes is served
with the whole block of 100 bytes. -/
theorem mymalloc_fragmentation_witness :
    mymalloc .undefined stateBestFit 50 = some (stateBestFitAfter, some 842) ∧
    (842 = 810 + headerSize ∧
      (stateBestFitAfter.pool 810).free = false ∧
      50 ≤ (stateBestFitAfter.pool 810).size ∧
      (stateBestFitAfter.pool 810).size ≤ 50 + headerSize ∧
      (50 + headerSize < (stateBestFit.pool 810).size →
        (stateBestFitAfter.pool 810).size = 50)) ∧
    (mymalloc .undefined stateBestFit 90).map
        (fun r => (r.2, (r.1.pool 810).size, (r.1.pool 810).free))
      = some (some 842, 100, false) :=
  ⟨rfl, mymalloc_fragmentation .undefined stateBestFit stateBestFitAfter treeBestFit 50 810 842
    .nil .nil rfl (by decide) rfl (by decide), by decide⟩

/-- C15. Releasing the null pointer is a no-op: `myfree` returns the state it
was given, whatever `treeRoot` is. -/
theorem myfree_null (freed : FreedRead) (m : MemoryManager) :
    myfree freed m none = some m := rfl

/-- C17. Best-fit search is sound on any tree, ordered or not, with free and
used blocks mixed: a node returned by `findBestFit` is a node of the tree, its
block is marked free and its size is at least the request. -/
theorem findBestFit_any_tree (mem : Pool) (t : TreeNode) (size : Nat) (b : Nat)
    (l r : TreeNode) (h : findBestFit mem t size = .node b l r) :
    t.hasNode (.node b l r) ∧ (mem b).free = true ∧ size ≤ (mem b).size :=
  ⟨(findBestFit_sound mem t size b l r h).1, (findBestFit_sound mem t size b l r h).2.2.1,
    (findBestFit_sound mem t size b l r h).2.2.2⟩

/-- C17 on a tree over `poolSandwich` that is not ordered and whose root holds
the used block at 132: a request for 80 bytes finds the free block at 0. -/
theorem findBestFit_any_tree_witness :
    findBestFit poolSandwich (.node 132 (.node 214 .nil .nil) (.node 0 .nil .nil)) 80
      = .node 0 .nil .nil ∧
    (poolSandwich 132).free = false ∧
    ((TreeNode.node 132 (.node 214 .nil .nil) (.node 0 .nil .nil)).hasNode (.node 0 .nil .nil) ∧
      (poolSandwich 0).free = true ∧ 80 ≤ (poolSandwich 0).size) :=
  ⟨by decide, by decide,
    findBestFit_any_tree poolSandwich (.node 132 (.node 214 .nil .nil) (.node 0 .nil .nil)) 80 0
      .nil .nil (by decide)⟩

/-! ### Shape of an insertion -/

theorem insertBlock_leafAdded (mem : Pool) (t : TreeNode) (b : Nat) :
    leafAdded t b (insertBlock mem t b) := by
  induction t with
  | nil => simp [insertBlock, leafAdded]
  | node nb left right ihl ihr =>
    unfold insertBlock
    by_cases h : (mem b).size < (mem nb).size
    · simp only [h, if_true]
      exact ⟨rfl, Or.inl ⟨rfl, ihl⟩⟩
    · simp only [h, if_false]
      exact ⟨rfl, Or.inr ⟨rfl, ihr⟩⟩

theorem insertBlock_eq_graft (mem : Pool) (t : TreeNode) (b : Nat) :
    insertBlock mem t b = graft t ((insertPath mem t b).map Prod.snd) b := by
  induction t with
  | nil => simp [insertBlock, graft]
  | node nb left right ihl ihr =>
    unfold insertBlock insertPath
    by_cases h : (mem b).size < (mem nb).size
    · simp only [h, if_true, List.map_cons, graft]
      rw [← ihl]
    · simp only [h, if_false, List.map_cons, graft]
      rw [← ihr]

theorem insertPath_ties (mem : Pool) (t : TreeNode) (b : Nat) :
    ∀ e ∈ insertPath mem t b, (mem e.1).size = (mem b).size → e.2 = true := by
  induction t with
  | nil => simp [insertPath]
  | node nb left right ihl ihr =>
    intro e he heq
    unfold insertPath at he
    by_cases h : (mem b).size < (mem nb).size
    · simp only [h, if_true, List.mem_cons] at he
      rcases he with rfl | he
      · simp only at heq
        omega
      · exact ihl e he heq
    · simp only [h, if_false, List.mem_cons] at he
      rcases he with rfl | he
      · rfl
      · exact ihr e he heq

/-- C11. Insert keeps the tree ordered and routes ties right: on a tree that
satisfies the ordering invariant (left sizes strictly below the node's, right
sizes at least the node's) `insertBlock` returns a tree that satisfies it
again, whose blocks are the original ones plus `b`, and which is the original
tree with one null child replaced by a leaf for `b` (so every existing node
stays in place); the leaf hangs at the end of the path of comparisons, and at
every node of that path whose size equals the size of `b` the path goes
right. -/
theorem insertBlock_ordered_ties (mem : Pool) (t : TreeNode) (b : Nat) (h : Ordered mem t) :
    Ordered mem (insertBlock mem t b) ∧
    (insertBlock mem t b).blocks.Perm (b :: t.blocks) ∧
    leafAdded t b (insertBlock mem t b) ∧
    insertBlock mem t b = graft t ((insertPath mem t b).map Prod.snd) b ∧
    (∀ e ∈ insertPath mem t b, (mem e.1).size = (mem b).size → e.2 = true) :=
  ⟨insertBlock_ordered mem t b h, insertBlock_perm mem t b, insertBlock_leafAdded mem t b,
    insertBlock_eq_graft mem t b, insertPath_ties mem t b⟩

/-- C11 on the index of `poolTwins` that holds the block at 0 (100 bytes):
the block at 314, of the same size, becomes the right child. -/
theorem insertBlock_ordered_ties_witness :
    insertBlock poolTwins (.node 0 .nil .nil) 314 = .node 0 .nil (.node 314 .nil .nil) ∧
    insertPath poolTwins (.node 0 .nil .nil) 314 = [(0, true)] ∧
    (Ordered poolTwins (insertBlock poolTwins (.node 0 .nil .nil) 314) ∧
      (insertBlock poolTwins (.node 0 .nil .nil) 314).blocks.Perm
        (314 :: (TreeNode.node 0 .nil .nil).blocks) ∧
      leafAdded (.node 0 .nil .nil) 314 (insertBlock poolTwins (.node 0 .nil .nil) 314) ∧
      insertBlock poolTwins (.node 0 .nil .nil) 314
        = graft (.node 0 .nil .nil)
          ((insertPath poolTwins (.node 0 .nil .nil) 314).map Prod.snd) 314 ∧
      (∀ e ∈ insertPath poolTwins (.node 0 .nil .nil) 314,
        (poolTwins e.1).size = (poolTwins 314).size → e.2 = true)) :=
  ⟨by decide, by decide,
    insertBlock_ordered_ties poolTwins (.node 0 .nil .nil) 314 (by decide)⟩

/-! ### Order of the index after a removal -/

theorem Ordered_sorted (mem : Pool) (t : TreeNode) (h : Ordered mem t) :
    t.blocks.Pairwise (fun a c => (mem a).size ≤ (mem c).size) := by
  induction t with
  | nil => simp [TreeNode.blocks]
  | node x left right ihl ihr =>
    obtain ⟨hl, hr, hol, hor⟩ := h
    simp only [TreeNode.blocks]
    rw [List.pairwise_append, List.pairwise_cons]
    refine ⟨ihl hol, ⟨hr, ihr hor⟩, ?_⟩
    intro a ha c hc
    have h1 := hl a ha
    simp only [List.mem_cons] at hc
    rcases hc with rfl | hc
    · omega
    · have := hr c hc
      omega

theorem removeBlock_subset (mem : Pool) (t : TreeNode) (b : Nat) (h : Ordered mem t) :
    ∀ a ∈ (removeBlock mem t b).blocks, a ∈ t.blocks := by
  intro a ha
  rw [removeBlock_blocks mem t b h] at ha
  exact List.mem_of_mem_eraseP ha

theorem removeBlock_ordered (mem : Pool) (t : TreeNode) (b : Nat) (h : Ordered mem t) :
    Ordered mem (removeBlock mem t b) := by
  induction t generalizing b with
  | nil => simp [removeBlock, Ordered]
  | node rb left right ihl ihr =>
    have hall := h
    obtain ⟨hl, hr, hol, hor⟩ := h
    unfold removeBlock
    by_cases h1 : (mem b).size < (mem rb).size
    · simp only [h1, if_true]
      exact ⟨fun a ha => hl a (removeBlock_subset mem left b hol a ha), hr, ihl b hol, hor⟩
    · by_cases h2 : (mem rb).size < (mem b).size
      · simp only [h1, h2, if_true, if_false]
        exact ⟨hl, fun a ha => hr a (removeBlock_subset mem right b hor a ha), hol, ihr b hor⟩
      · simp only [h1, h2, if_false]
        cases left with
        | nil => simpa using hor
        | node lb ll lr =>
          cases right with
          | nil => simpa using hol
          | node qb ql qr =>
            obtain ⟨tb, tl, tr, tail, hmin, hblocks⟩ := findMin_head qb ql qr
            simp only [hmin]
            have hsorted := Ordered_sorted mem _ hor
            rw [hblocks, List.pairwise_cons] at hsorted
            have htb : tb ∈ (TreeNode.node qb ql qr).blocks := by
              rw [hblocks]
              simp
            have hrem : (removeBlock mem (TreeNode.node qb ql qr) tb).blocks = tail := by
              rw [removeBlock_blocks mem _ tb hor, hblocks]
              have hself : sameSize mem tb tb = true := by simp [sameSize]
              rw [List.eraseP_cons_of_pos hself]
            refine ⟨?_, ?_, hol, ihr tb hor⟩
            · intro a ha
              have := hl a ha
              have := hr tb htb
              omega
            · intro a ha
              rw [hrem] at ha
              exact hsorted.1 a ha

theorem removeBlock_no_match (mem : Pool) (t : TreeNode) (b : Nat)
    (h : ∀ a ∈ t.blocks, (mem a).size ≠ (mem b).size) : removeBlock mem t b = t := by
  induction t with
  | nil => rfl
  | node rb left right ihl ihr =>
    have hrb := h rb (by simp [TreeNode.blocks])
    have hleft : ∀ a ∈ left.blocks, (mem a).size ≠ (mem b).size := fun a ha =>
      h a (by simp [TreeNode.blocks, ha])
    have hright : ∀ a ∈ right.blocks, (mem a).size ≠ (mem b).size := fun a ha =>
      h a (by simp [TreeNode.blocks, ha])
    unfold removeBlock
    by_cases h1 : (mem b).size < (mem rb).size
    · simp only [h1, if_true]
      rw [ihl hleft]
    · by_cases h2 : (mem rb).size < (mem b).size
      · simp only [h1, h2, if_true, if_false]
        rw [ihr hright]
      · exfalso
        omega

theorem map_eraseP_sameSize (mem : Pool) (b : Nat) (l : List Nat) :
    (l.eraseP (sameSize mem b)).map (fun a => (mem a).size)
      = (l.map (fun a => (mem a).size)).erase (mem b).size := by
  induction l with
  | nil => rfl
  | cons x rest ih =>
    by_cases hx : (mem x).size = (mem b).size
    · have hp : sameSize mem b x = true := by simp [sameSize, hx]
      rw [List.eraseP_cons_of_pos hp]
      simp [hx]
    · have hp : ¬ sameSize mem b x = true := by simp [sameSize, hx]
      rw [List.eraseP_cons_of_neg hp]
      simp only [List.map_cons]
      rw [List.erase_cons_tail (by simpa using hx), ih]

/-- C18. Remove keeps the tree ordered: on a tree that satisfies the ordering
invariant `removeBlock` returns a tree that satisfies it again. When some node
has the size of `b`, the result has exactly one node fewer and its sizes, in
in-order, are the original ones with one occurrence of that size erased; when
no node has the size of `b`, the result is the original tree. -/
theorem removeBlock_keeps_order (mem : Pool) (t : TreeNode) (b : Nat) (h : Ordered mem t) :
    Ordered mem (removeBlock mem t b) ∧
    ((∃ a ∈ t.blocks, (mem a).size = (mem b).size) →
      (removeBlock mem t b).blocks.length + 1 = t.blocks.length ∧
      (removeBlock mem t b).blocks.map (fun a => (mem a).size)
        = (t.blocks.map (fun a => (mem a).size)).erase (mem b).size ∧
      ((removeBlock mem t b).blocks.map (fun a => (mem a).size)).Perm
        ((t.blocks.map (fun a => (mem a).size)).erase (mem b).size)) ∧
    ((∀ a ∈ t.blocks, (mem a).size ≠ (mem b).size) → removeBlock mem t b = t) := by
  refine ⟨removeBlock_ordered mem t b h, ?_, removeBlock_no_match mem t b⟩
  rintro ⟨a, ha, hsz⟩
  have hb := removeBlock_blocks mem t b h
  have hmap := map_eraseP_sameSize mem b t.blocks
  rw [← hb] at hmap
  refine ⟨?_, hmap, hmap ▸ List.Perm.refl _⟩
  rw [hb, List.length_eraseP_of_mem ha (by simp [sameSize, hsz])]
  have : 0 < t.blocks.length := List.length_pos_of_mem ha
  omega

/-- C18 on the index of `poolTwins`, whose two blocks both have 100 bytes. -/
theorem removeBlock_keeps_order_witness :
    treeTwins = .node 0 .nil (.node 314 .nil .nil) ∧
    removeBlock poolTwins treeTwins 314 = .node 314 .nil .nil ∧
    removeBlock poolTwins treeTwins 132 = treeTwins ∧
    (Ordered poolTwins (removeBlock poolTwins treeTwins 314) ∧
      ((∃ a ∈ treeTwins.blocks, (poolTwins a).size = (poolTwins 314).size) →
        (removeBlock poolTwins treeTwins 314).blocks.length + 1 = treeTwins.blocks.length ∧
        (removeBlock poolTwins treeTwins 314).blocks.map (fun a => (poolTwins a).size)
          = (treeTwins.blocks.map (fun a => (poolTwins a).size)).erase (poolTwins 314).size ∧
        ((removeBlock poolTwins treeTwins 314).blocks.map (fun a => (poolTwins a).size)).Perm
          ((treeTwins.blocks.map (fun a => (poolTwins a).size)).erase (poolTwins 314).size)) ∧
      ((∀ a ∈ treeTwins.blocks, (poolTwins a).size ≠ (poolTwins 314).size) →
        removeBlock poolTwins treeTwins 314 = treeTwins)) :=
  ⟨by decide, by decide, by decide,
    removeBlock_keeps_order poolTwins treeTwins 314 (by decide)⟩

/-! ### Construction -/

/-- For a capacity of at least one header that is a value of `size_t`, the
constructor leaves one free block at the arena start with
`headerSize + size = capacity`, and an index that holds exactly this block. -/
theorem construct_in_range (cap : Nat) (arena : Pool) (hcap : headerSize ≤ cap)
    (hlt : cap < SIZE_MOD) :
    walk (MemoryManager.construct cap arena).pool (cap + 1) (some 0) = [0] ∧
    ((MemoryManager.construct cap arena).pool 0).free = true ∧
    ((MemoryManager.construct cap arena).pool 0).next = none ∧
    ((MemoryManager.construct cap arena).pool 0).prev = none ∧
    headerSize + ((MemoryManager.construct cap arena).pool 0).size = cap ∧
    ((MemoryManager.construct cap arena).pool 0).size < cap ∧
    (MemoryManager.construct cap arena).treeRoot = .live (.node 0 .nil .nil) := by
  obtain ⟨hsz, hfr⟩ := construct_block cap arena hcap hlt
  have hnext : ((MemoryManager.construct cap arena).pool 0).next = none := by
    simp [MemoryManager.construct, setPrev_next, setNext_next]
  have hprev : ((MemoryManager.construct cap arena).pool 0).prev = none := by
    simp [MemoryManager.construct, setPrev_prev]
  have hH : headerSize = 32 := rfl
  refine ⟨?_, hfr, hnext, hprev, ?_, ?_, rfl⟩
  · show 0 :: walk (MemoryManager.construct cap arena).pool cap
        ((MemoryManager.construct cap arena).pool 0).next = [0]
    rw [hnext]
    cases cap <;> rfl
  · rw [hsz]
    omega
  · rw [hsz]
    omega

/-- C12. For the positive capacity 16 the constructor computes the size of the
initial block with wrap-around: the block has `2^64 - 16` bytes, so
`headerSize + size` is not the capacity and the size is not below the
capacity. -/
theorem construct_small_capacity_wraps :
    ((MemoryManager.construct 16 zeroPool).pool 0).size = 18446744073709551600 ∧
    headerSize + ((MemoryManager.construct 16 zeroPool).pool 0).size ≠ 16 ∧
    ¬ ((MemoryManager.construct 16 zeroPool).pool 0).size < 16 ∧
    walk (MemoryManager.construct 16 zeroPool).pool 4 (some 0) = [0] ∧
    ((MemoryManager.construct 16 zeroPool).pool 0).free = true := by
  decide

/-! ### Clients of the allocator -/

/-- C13. On a fresh arena of `headerSize + 200` bytes the allocation of 200
bytes returns offset 32 without a split and leaves `treeRoot` on the deleted
root node; the following allocation of 1 byte reads that node, so it has no
defined result. -/
theorem exhaustion_undefined :
    (mymalloc .undefined (MemoryManager.construct 232 zeroPool) 200).map
        (fun r => (r.1.treeRoot, r.2, walk r.1.pool 4 (some 0), (r.1.pool 0).size))
      = some (.dangling (.node 0 .nil .nil), some 32, [0], 200) ∧
    exhaustion .undefined = none :=
  ⟨by decide, rfl⟩

/-- On the lenient reading the second allocation of `exhaustion` returns the
null pointer and the headers and the root are what the first allocation
left. -/
theorem exhaustion_intact_outcome :
    (exhaustion .intact).map
        (fun r => (r.2.1, r.2.2, r.1.treeRoot, walk r.1.pool 4 (some 0), r.1.pool 0))
      = some (some 32, none, .dangling (.node 0 .nil .nil), [0],
          ⟨200, false, none, none⟩) := by
  decide

/-- C16. Live allocations can overlap. From `stateSandwich`, with every read
defined: after the release of pointer 164 the next allocation returns 164
again, the payload of the block at 132 that the release merged into the block
at 0, and the allocation after it returns 32, the block at 0; both blocks are
used, the ledger is `[0, 332]` and does not contain 132, and the payloads
overlap. On a fresh arena the first allocation has no defined result; on the
lenient reading an allocation of 200 bytes, its release and allocations of
2000 and 100 bytes return 32, the whole arena, and 264, the payload of the
block at 232 that the release merged into the block at 0. -/
theorem allocations_overlap :
    (sandwichClient .undefined).map
        (fun r => (r.2.1, r.2.2, walk r.1.pool 8 (some 0), (r.1.pool 132).free,
          (r.1.pool 0).free, payloadsOverlap r.1.pool 164 32))
      = some (some 164, some 32, [0, 332], false, false, true) ∧
    mymalloc .undefined (MemoryManager.construct 2048 zeroPool) 200 = none ∧
    (reuseClient .intact).map
        (fun r => (r.2.1, r.2.2, walk r.1.pool 8 (some 0), (r.1.pool 0).free,
          (r.1.pool 232).free, payloadsOverlap r.1.pool 32 264))
      = some (some 32, some 264, [0], false, false, true) :=
  ⟨by decide, rfl, by decide⟩

/-! ### Neighbouring free blocks -/

theorem NoAdjFree_cons (mem : Pool) (a : Nat) (l : List Nat) :
    NoAdjFree mem (a :: l) ↔
      (∀ c, headOr l none = some c → ¬ ((mem a).free = true ∧ (mem c).free = true)) ∧
        NoAdjFree mem l := by
  cases l with
  | nil => simp [NoAdjFree, headOr]
  | cons c rest =>
    show (¬ ((mem a).free = true ∧ (mem c).free = true) ∧ NoAdjFree mem (c :: rest)) ↔ _
    simp [headOr]

theorem NoAdjFree_append (mem : Pool) (xs ys : List Nat) :
    NoAdjFree mem (xs ++ ys) ↔
      NoAdjFree mem xs ∧ NoAdjFree mem ys ∧
        ∀ a c, lastOr xs none = some a → headOr ys none = some c →
          ¬ ((mem a).free = true ∧ (mem c).free = true) := by
  induction xs with
  | nil => simp [NoAdjFree, lastOr]
  | cons x rest ih =>
    rw [List.cons_append, NoAdjFree_cons, NoAdjFree_cons, ih, headOr_append]
    cases rest with
    | nil =>
      simp only [headOr, lastOr, NoAdjFree]
      constructor
      · rintro ⟨h1, -, h2, -⟩
        refine ⟨⟨fun c hc => Option.noConfusion hc, trivial⟩, h2, fun a c ha hc => ?_⟩
        simp only [Option.some.injEq] at ha
        exact ha ▸ h1 c hc
      · rintro ⟨-, h2, h3⟩
        exact ⟨fun c hc => h3 x c rfl hc, trivial, h2, fun a c ha => Option.noConfusion ha⟩
    | cons y rest2 =>
      simp only [headOr, lastOr]
      tauto

theorem NoAdjFree_frame (mem mem2 : Pool) (l : List Nat)
    (h : ∀ a ∈ l, (mem2 a).free = (mem a).free) (hn : NoAdjFree mem l) :
    NoAdjFree mem2 l := by
  induction l with
  | nil => trivial
  | cons a rest ih =>
    rw [NoAdjFree_cons] at hn ⊢
    refine ⟨?_, ih (fun x hx => h x (by simp [hx])) hn.2⟩
    intro c hc
    have hcm : c ∈ rest := headOr_mem rest c hc
    rw [h a (by simp), h c (by simp [hcm])]
    exact hn.1 c hc

theorem NoAdjFree_tail (mem : Pool) (l : List Nat) (hn : NoAdjFree mem l) :
    NoAdjFree mem l.tail := by
  cases l with
  | nil => trivial
  | cons a rest => exact ((NoAdjFree_cons mem a rest).1 hn).2

/-- Joining two runs without neighbouring free blocks across a boundary where
the block on one of the two sides is used. -/
theorem NoAdjFree_join (mem : Pool) (xs ys : List Nat) (hx : NoAdjFree mem xs)
    (hy : NoAdjFree mem ys)
    (hb : (∀ a, lastOr xs none = some a → (mem a).free = false) ∨
      (∀ c, headOr ys none = some c → (mem c).free = false)) :
    NoAdjFree mem (xs ++ ys) := by
  rw [NoAdjFree_append]
  refine ⟨hx, hy, ?_⟩
  intro a c ha hc hboth
  rcases hb with hb | hb
  · have := hb a ha
    rw [hboth.1] at this
    exact Bool.noConfusion this
  · have := hb c hc
    rw [hboth.2] at this
    exact Bool.noConfusion this

theorem NoAdjFree_cons_of_head (mem : Pool) (a : Nat) (l : List Nat) (hl : NoAdjFree mem l)
    (hb : (mem a).free = false ∨ (∀ c, headOr l none = some c → (mem c).free = false)) :
    NoAdjFree mem (a :: l) := by
  have := NoAdjFree_join mem [a] l trivial hl (by
    rcases hb with hb | hb
    · left
      intro x hx
      simp only [lastOr, Option.some.injEq] at hx
      rw [← hx]
      exact hb
    · right
      exact hb)
  simpa using this

/-! ### The whole ledger invariant across `coalesce` -/

theorem coalesceNext_free (mem : Pool) (block z : Nat) :
    (coalesceNext mem block z).free = (mem z).free := by
  rw [coalesceNext_eq]
  cases (mem block).next with
  | none => rfl
  | some n =>
    by_cases hf : (mem n).free = true
    · simp only [hf, if_true]
      exact absorb_free mem block n z
    · simp [hf]

theorem coalescePrev_free (mem : Pool) (block z : Nat) :
    (coalescePrev mem block z).free = (mem z).free := by
  rw [coalescePrev_eq]
  cases (mem block).prev with
  | none => rfl
  | some p =>
    by_cases hf : (mem p).free = true
    · simp only [hf, if_true]
      exact absorb_free mem p block z
    · simp [hf]

theorem coalesce_free (mem : Pool) (block z : Nat) :
    (coalesce mem block z).free = (mem z).free := by
  unfold coalesce
  rw [coalescePrev_free, coalesceNext_free]

theorem coalesceNext_ledger (mem : Pool) (cap : Nat) (pre post : List Nat) (block : Nat)
    (h : LedgerOK mem cap (pre ++ block :: post)) (hcap : cap < SIZE_MOD) :
    LedgerOK (coalesceNext mem block) cap
      (pre ++ block :: (if mergesNext mem block = true then post.tail else post)) := by
  have hat := LinksOK_at mem pre post block h.1
  rw [coalesceNext_eq]
  cases post with
  | nil =>
    have hnx : (mem block).next = none := hat.2
    simp [hnx, mergesNext, h]
  | cons n post2 =>
    have hnx : (mem block).next = some n := hat.2
    by_cases hf : (mem n).free = true
    · simp only [hnx, hf, if_true, mergesNext, List.tail_cons]
      exact absorb_ledger mem cap pre post2 block n h hcap
    · simp [hnx, hf, mergesNext, h]

theorem coalescePrev_ledger (mem : Pool) (cap : Nat) (pre post : List Nat) (block : Nat)
    (h : LedgerOK mem cap (pre ++ block :: post)) (hcap : cap < SIZE_MOD) :
    LedgerOK (coalescePrev mem block) cap
      (pre ++ (if mergesPrev mem block = true then [] else [block]) ++ post) := by
  have hat := LinksOK_at mem pre post block h.1
  rw [coalescePrev_eq]
  rcases List.eq_nil_or_concat pre with rfl | ⟨pre2, p, rfl⟩
  · have hpv : (mem block).prev = none := hat.1
    simp only [hpv, mergesPrev]
    simpa using h
  · rw [List.concat_eq_append] at h hat ⊢
    have hpv : (mem block).prev = some p := by
      rw [hat.1, lastOr_concat]
    by_cases hf : (mem p).free = true
    · simp only [hpv, hf, if_true, mergesPrev]
      have := absorb_ledger mem cap pre2 post p block (by simpa using h) hcap
      simpa using this
    · simp only [hpv, hf, mergesPrev]
      simpa using h

theorem mergesPrev_coalesceNext (mem : Pool) (pre post : List Nat) (block : Nat)
    (h : LinksOK mem (pre ++ block :: post)) :
    mergesPrev (coalesceNext mem block) block = mergesPrev mem block := by
  obtain ⟨h1, hfree⟩ := coalesceNext_links mem pre post block h
  have hat := LinksOK_at mem pre post block h
  have hat1 := LinksOK_at (coalesceNext mem block) pre _ block h1
  unfold mergesPrev
  rw [hat1.1, hat.1]
  cases lastOr pre none with
  | none => rfl
  | some p => exact hfree p

theorem coalesce_ledger (mem : Pool) (cap : Nat) (pre post : List Nat) (block : Nat)
    (h : LedgerOK mem cap (pre ++ block :: post)) (hcap : cap < SIZE_MOD) :
    LedgerOK (coalesce mem block) cap
      (pre ++ (if mergesPrev mem block = true then [] else [block])
        ++ (if mergesNext mem block = true then post.tail else post)) := by
  have h1 := coalesceNext_ledger mem cap pre post block h hcap
  have := coalescePrev_ledger (coalesceNext mem block) cap pre _ block h1 hcap
  rw [mergesPrev_coalesceNext mem pre post block h.1] at this
  exact this

theorem LedgerOK_setFree (mem : Pool) (cap : Nat) (l : List Nat) (a : Nat) (v : Bool)
    (h : LedgerOK mem cap l) : LedgerOK (setFree mem a v) cap l := by
  obtain ⟨⟨hh, hs, hp⟩, ht⟩ := h
  refine ⟨⟨hh, ?_, hp⟩, ?_⟩
  · exact Seg_frame mem _ l none none
      (fun x _ => ⟨setFree_prev mem a v x, setFree_next mem a v x⟩) hs
  · exact Tiled_frame mem _ l cap (fun x _ => setFree_size mem a v x) ht

theorem ledger_distinct (mem : Pool) (pre post : List Nat) (block : Nat)
    (h : LinksOK mem (pre ++ block :: post)) :
    (∀ a ∈ pre, a ≠ block) ∧ (∀ c ∈ post, c ≠ block) := by
  have hpw := h.2.2
  rw [List.pairwise_append, List.pairwise_cons] at hpw
  obtain ⟨-, ⟨hball, -⟩, hcross⟩ := hpw
  constructor
  · intro a ha
    have := hcross a ha block (by simp)
    omega
  · intro c hc
    have := hball c hc
    omega

/-- Release on the arena: marking a block of a consistent tiled ledger free and
coalescing it leaves a consistent tiled ledger, and no two neighbours of it
are both free when this held before. -/
theorem release_noAdjFree (mem : Pool) (cap : Nat) (pre post : List Nat) (block : Nat)
    (hled : LedgerOK mem cap (pre ++ block :: post)) (hcap : cap < SIZE_MOD)
    (hna : NoAdjFree mem (pre ++ block :: post)) :
    LedgerOK (coalesce (setFree mem block true) block) cap
      (pre ++ (if mergesPrev (setFree mem block true) block = true then [] else [block])
        ++ (if mergesNext (setFree mem block true) block = true then post.tail else post)) ∧
    NoAdjFree (coalesce (setFree mem block true) block)
      (pre ++ (if mergesPrev (setFree mem block true) block = true then [] else [block])
        ++ (if mergesNext (setFree mem block true) block = true then post.tail else post)) := by
  have hled1 := LedgerOK_setFree mem cap _ block true hled
  refine ⟨coalesce_ledger _ cap pre post block hled1 hcap, ?_⟩
  obtain ⟨hpre_ne, hpost_ne⟩ := ledger_distinct mem pre post block hled.1
  have hat := LinksOK_at _ pre post block hled1.1
  -- flags after the release
  have hflag : ∀ z, z ≠ block →
      (coalesce (setFree mem block true) block z).free = (mem z).free := by
    intro z hz
    rw [coalesce_free, setFree_free]
    simp [hz]
  have hflag1 : ∀ z, (coalesce (setFree mem block true) block z).free
      = (setFree mem block true z).free := fun z => coalesce_free _ block z
  rw [NoAdjFree_append] at hna
  obtain ⟨hpre, hbp, -⟩ := hna
  rw [NoAdjFree_cons] at hbp
  obtain ⟨-, hpost⟩ := hbp
  have hpre2 : NoAdjFree (coalesce (setFree mem block true) block) pre :=
    NoAdjFree_frame mem _ pre (fun a ha => hflag a (hpre_ne a ha)) hpre
  -- the run after the block
  have hpost1 : NoAdjFree (coalesce (setFree mem block true) block)
      (if mergesNext (setFree mem block true) block = true then post.tail else post) := by
    by_cases hmn : mergesNext (setFree mem block true) block = true
    · simp only [hmn, if_true]
      refine NoAdjFree_frame mem _ _ (fun a ha => hflag a (hpost_ne a ?_)) (NoAdjFree_tail mem post hpost)
      exact List.mem_of_mem_tail ha
    · simp only [hmn]
      exact NoAdjFree_frame mem _ _ (fun a ha => hflag a (hpost_ne a ha)) hpost
  have hhead1 : ∀ c,
      headOr (if mergesNext (setFree mem block true) block = true then post.tail else post) none
        = some c → (coalesce (setFree mem block true) block c).free = false := by
    intro c hc
    by_cases hmn : mergesNext (setFree mem block true) block = true
    · simp only [hmn, if_true] at hc
      cases post with
      | nil => simp [headOr] at hc
      | cons n post2 =>
        simp only [List.tail_cons] at hc
        have hnx : (setFree mem block true block).next = some n := hat.2
        have hnfree : (setFree mem block true n).free = true := by
          simpa [mergesNext, hnx] using hmn
        have hn_ne : n ≠ block := hpost_ne n (by simp)
        have hnfree2 : (mem n).free = true := by
          rw [setFree_free] at hnfree
          simpa [hn_ne] using hnfree
        rw [NoAdjFree_cons] at hpost
        have hc_mem : c ∈ post2 := headOr_mem post2 c hc
        have hc_ne : c ≠ block := hpost_ne c (by simp [hc_mem])
        rw [hflag c hc_ne]
        have := hpost.1 c hc
        cases hcf : (mem c).free with
        | false => rfl
        | true => exact absurd ⟨hnfree2, hcf⟩ this
    · simp only [hmn] at hc
      have hnx : (setFree mem block true block).next = some c := by
        rw [hat.2]
        exact hc
      rw [hflag1]
      cases hcf : (setFree mem block true c).free with
      | false => rfl
      | true =>
        exfalso
        apply hmn
        simp [mergesNext, hnx, hcf]
  by_cases hmp : mergesPrev (setFree mem block true) block = true
  · simp only [hmp, if_true, List.append_nil]
    exact NoAdjFree_join _ pre _ hpre2 hpost1 (Or.inr hhead1)
  · simp only [hmp, List.append_assoc, List.singleton_append]
    refine NoAdjFree_join _ pre _ hpre2 (NoAdjFree_cons_of_head _ block _ hpost1 (Or.inr hhead1))
      (Or.inl ?_)
    intro a ha
    have hpv : (setFree mem block true block).prev = some a := by
      rw [hat.1]
      exact ha
    rw [hflag1]
    cases haf : (setFree mem block true a).free with
    | false => rfl
    | true =>
      exfalso
      apply hmp
      simp [mergesPrev, hpv, haf]

theorem ledger_block_fits (mem : Pool) (cap : Nat) (pre post : List Nat) (block : Nat)
    (h : LedgerOK mem cap (pre ++ block :: post)) :
    block + headerSize + (mem block).size ≤ cap := by
  have ht := h.2
  rw [Tiled_append] at ht
  obtain ⟨-, hend, ht3⟩ := ht
  have := Tiled_start_le mem post cap ht3
  omega

/-- Allocation on the arena: handing out a free block of a consistent tiled
ledger, with or without the split, leaves a consistent tiled ledger, and no
two neighbours of it are both free when this held before. -/
theorem allocate_noAdjFree (mem : Pool) (cap : Nat) (pre post : List Nat) (block size : Nat)
    (hled : LedgerOK mem cap (pre ++ block :: post)) (hcap : cap < SIZE_MOD)
    (hfree : (mem block).free = true)
    (hna : NoAdjFree mem (pre ++ block :: post)) :
    (size + headerSize < (mem block).size →
      LedgerOK (setFree (splitBlock mem block size) block false) cap
          (pre ++ block :: (block + headerSize + size) :: post) ∧
        NoAdjFree (setFree (splitBlock mem block size) block false)
          (pre ++ block :: (block + headerSize + size) :: post)) ∧
    ((mem block).size ≤ size + headerSize →
      LedgerOK (setFree mem block false) cap (pre ++ block :: post) ∧
        NoAdjFree (setFree mem block false) (pre ++ block :: post)) := by
  obtain ⟨hpre_ne, hpost_ne⟩ := ledger_distinct mem pre post block hled.1
  rw [NoAdjFree_append] at hna
  obtain ⟨hpre, hbp, -⟩ := hna
  rw [NoAdjFree_cons] at hbp
  obtain ⟨hbn, hpost⟩ := hbp
  have hhead : ∀ c, headOr post none = some c → (mem c).free = false := by
    intro c hc
    have := hbn c hc
    cases hcf : (mem c).free with
    | false => rfl
    | true => exact absurd ⟨hfree, hcf⟩ this
  constructor
  · intro hsplit
    have hlinks := splitBlock_links mem cap pre post block size hled hsplit
    have htiled := splitBlock_tiled mem cap pre post block size hled hcap hsplit
    have hled2 : LedgerOK (splitBlock mem block size) cap
        (pre ++ block :: (block + headerSize + size) :: post) := ⟨hlinks, htiled⟩
    refine ⟨LedgerOK_setFree _ cap _ block false hled2, ?_⟩
    have hd := ledger_distinct (splitBlock mem block size) (pre ++ [block]) post
      (block + headerSize + size) (by simpa using hlinks)
    have hpre_nb : ∀ a ∈ pre, a ≠ block + headerSize + size := fun a ha =>
      hd.1 a (by simp [ha])
    have hflag : ∀ z, z ≠ block → z ≠ block + headerSize + size →
        (setFree (splitBlock mem block size) block false z).free = (mem z).free := by
      intro z hz hz2
      rw [setFree_free, splitBlock_free]
      simp [hz, hz2]
    have hfb : (setFree (splitBlock mem block size) block false block).free = false := by
      rw [setFree_free]
      simp
    have hpre2 : NoAdjFree (setFree (splitBlock mem block size) block false) pre :=
      NoAdjFree_frame mem _ pre (fun a ha => hflag a (hpre_ne a ha) (hpre_nb a ha)) hpre
    have hpost2 : NoAdjFree (setFree (splitBlock mem block size) block false) post :=
      NoAdjFree_frame mem _ post (fun a ha => hflag a (hpost_ne a ha) (hd.2 a ha)) hpost
    have hhead2 : ∀ c, headOr post none = some c →
        (setFree (splitBlock mem block size) block false c).free = false := by
      intro c hc
      have hcm := headOr_mem post c hc
      rw [hflag c (hpost_ne c hcm) (hd.2 c hcm)]
      exact hhead c hc
    refine NoAdjFree_join _ pre _ hpre2 ?_ (Or.inr ?_)
    · exact NoAdjFree_cons_of_head _ block _
        (NoAdjFree_cons_of_head _ _ post hpost2 (Or.inr hhead2)) (Or.inl hfb)
    · intro c hc
      simp only [headOr, Option.some.injEq] at hc
      rw [← hc]
      exact hfb
  · intro _
    refine ⟨LedgerOK_setFree mem cap _ block false hled, ?_⟩
    have hflag : ∀ z, z ≠ block → (setFree mem block false z).free = (mem z).free := by
      intro z hz
      rw [setFree_free]
      simp [hz]
    have hfb : (setFree mem block false block).free = false := by
      rw [setFree_free]
      simp
    have hpre2 : NoAdjFree (setFree mem block false) pre :=
      NoAdjFree_frame mem _ pre (fun a ha => hflag a (hpre_ne a ha)) hpre
    have hpost2 : NoAdjFree (setFree mem block false) post :=
      NoAdjFree_frame mem _ post (fun a ha => hflag a (hpost_ne a ha)) hpost
    refine NoAdjFree_join _ pre _ hpre2 ?_ (Or.inr ?_)
    · exact NoAdjFree_cons_of_head _ block post hpost2 (Or.inl hfb)
    · intro c hc
      simp only [headOr, Option.some.injEq] at hc
      rw [← hc]
      exact hfb

/-- Adjacent free blocks while the index yields ledger blocks: the ledger the
constructor leaves has no two adjacent free blocks; when a consistent ledger
that tiles an arena of `size_t` capacity has none, the ledger of the new state
has none after a `mymalloc` that returns a pointer to a block of the ledger
(with or without a split) and after a `myfree` of the pointer of a used block
of the ledger (with its coalescing). Nothing is said of an allocation from a
block that is not on the ledger. -/
theorem no_adjacent_free_preserved :
    (∀ (size : Nat) (arena : Pool),
      LinksOK (MemoryManager.construct size arena).pool [0] ∧
        NoAdjFree (MemoryManager.construct size arena).pool [0]) ∧
    (∀ (freed : FreedRead) (m m2 : MemoryManager) (t : TreeNode) (size block h : Nat)
        (l r : TreeNode) (cap : Nat) (pre post : List Nat),
      m.treeRoot.read freed = some t → findBestFit m.pool t size = .node block l r →
      mymalloc freed m size = some (m2, some h) →
      LedgerOK m.pool cap (pre ++ block :: post) → cap < SIZE_MOD →
      NoAdjFree m.pool (pre ++ block :: post) →
      LedgerOK m2.pool cap
          (if size + headerSize < (m.pool block).size then
            pre ++ block :: (block + headerSize + size) :: post
          else pre ++ block :: post) ∧
        NoAdjFree m2.pool
          (if size + headerSize < (m.pool block).size then
            pre ++ block :: (block + headerSize + size) :: post
          else pre ++ block :: post)) ∧
    (∀ (freed : FreedRead) (m m2 : MemoryManager) (block cap : Nat) (pre post : List Nat),
      myfree freed m (some (block + headerSize)) = some m2 →
      LedgerOK m.pool cap (pre ++ block :: post) → cap < SIZE_MOD →
      (m.pool block).free = false →
      NoAdjFree m.pool (pre ++ block :: post) →
      LedgerOK m2.pool cap
          (pre ++ (if mergesPrev (setFree m.pool block true) block = true then [] else [block])
            ++ (if mergesNext (setFree m.pool block true) block = true then post.tail
              else post)) ∧
        NoAdjFree m2.pool
          (pre ++ (if mergesPrev (setFree m.pool block true) block = true then [] else [block])
            ++ (if mergesNext (setFree m.pool block true) block = true then post.tail
              else post))) := by
  refine ⟨?_, ?_, ?_⟩
  · intro size arena
    refine ⟨?_, trivial⟩
    simp [LinksOK, Seg, headOr, MemoryManager.construct, setPrev_prev, setPrev_next,
      setNext_next]
  · intro freed m m2 t size block h l r cap pre post hroot hfind hok hled hcap hna
    have hfits := ledger_block_fits m.pool cap pre post block hled
    have hfit : (m.pool block).size + headerSize < SIZE_MOD := by omega
    obtain ⟨-, -, hfree, hsplit, hwhole⟩ :=
      mymalloc_result freed m m2 t size block h l r hroot hfind hok hfit
    have key := allocate_noAdjFree m.pool cap pre post block size hled hcap hfree hna
    by_cases hlt : size + headerSize < (m.pool block).size
    · simp only [hlt, if_true]
      rw [hsplit hlt]
      exact key.1 hlt
    · have hle : (m.pool block).size ≤ size + headerSize := by omega
      simp only [hlt, if_false]
      rw [hwhole hle]
      exact key.2 hle
  · intro freed m m2 block cap pre post hok hled hcap _ hna
    have hpool : m2.pool = coalesce (setFree m.pool block true) block := by
      simp only [myfree, Nat.add_sub_cancel] at hok
      cases hins : callInsertBlock freed (coalesce (setFree m.pool block true) block)
          m.treeRoot block with
      | none => simp [hins] at hok
      | some root =>
        simp only [hins, Option.some.injEq] at hok
        rw [← hok]
    rw [hpool]
    exact release_noAdjFree m.pool cap pre post block hled hcap hna


theorem no_adjacent_free_preserved_witness :
    NoAdjFree (MemoryManager.construct 2048 zeroPool).pool [0] ∧
    (NoAdjFree poolBestFit [0, 532, 580, 762, 810] ∧
      mymalloc .undefined stateBestFit 50 = some (stateBestFitAfter, some 842) ∧
      LedgerOK stateBestFitAfter.pool 942 [0, 532, 580, 762, 810, 892] ∧
      NoAdjFree stateBestFitAfter.pool [0, 532, 580, 762, 810, 892]) ∧
    (NoAdjFree poolSandwich [0, 132, 214] ∧
      ∃ m2, myfree .undefined stateSandwich (some 164) = some m2 ∧
        LedgerOK m2.pool 446 [0] ∧ NoAdjFree m2.pool [0]) :=
  ⟨(no_adjacent_free_preserved.1 2048 zeroPool).2,
    ⟨by decide, rfl,
      no_adjacent_free_preserved.2.1 .undefined stateBestFit stateBestFitAfter treeBestFit
        50 810 842 .nil .nil 942 [0, 532, 580, 762] [] rfl rfl rfl (by decide) (by decide)
        (by decide)⟩,
    ⟨by decide,
      (Option.isSome_iff_exists.mp
        (rfl : (myfree .undefined stateSandwich (some 164)).isSome = true)).elim
        (fun m2 h => ⟨m2, h,
          no_adjacent_free_preserved.2.2 .undefined stateSandwich m2 132 446 [0] [214] h
            (by decide) (by decide) (by decide) (by decide)⟩)⟩⟩


/-- C19. A successful allocation can leave two adjacent free blocks. The state
`stateAbsorbed` has a consistent tiled ledger without such a pair and an index
of exactly its free blocks. With every read defined, the release of pointer
245, allocations of 142 and 8 bytes (pointers 113 and 287) and the release of
113 lead to the ledger `[0, 33, 81, 255, 295]`, again consistent, tiled and
without such a pair. The allocation of 10 bytes that follows returns 245, the
payload of the block at 213 that the first release merged into the block at
81; its split writes a free header at 255, a used block of the ledger, so the
ledger blocks at 81 and 255 are adjacent and both free. -/
theorem mymalloc_creates_adjacent_free :
    LedgerOK poolAbsorbed 527 [0, 33, 81, 213, 295] ∧
    NoAdjFree poolAbsorbed [0, 33, 81, 213, 295] ∧
    stateAbsorbed.treeRoot = .live (.node 0 .nil (.node 81 .nil .nil)) ∧
    (absorbedSetup .undefined).map
        (fun r => (r.2.1, r.2.2, walk r.1.pool 8 (some 0),
          decide (LedgerOK r.1.pool 527 [0, 33, 81, 255, 295]),
          decide (NoAdjFree r.1.pool [0, 33, 81, 255, 295]),
          (r.1.pool 255).free))
      = some (some 113, some 287, [0, 33, 81, 255, 295], true, true, false) ∧
    (absorbedClient .undefined).map
        (fun r => (r.2, walk r.1.pool 8 (some 0), (r.1.pool 81).free, (r.1.pool 255).free,
          decide (NoAdjFree r.1.pool [0, 33, 81, 255, 295])))
      = some (some 245, [0, 33, 81, 255, 295], true, true, false) :=
  ⟨by decide, by decide, by decide, by decide, by decide⟩

end DynMem
